import Mathlib

/-!
# http_proto: header field tokenizer, circular buffer, workspace

A shallow embedding of `bnf/impl/header_fields.ipp` (`header_fields::increment`,
`replace_obs_fold`), `detail/impl/circular_buffer.ipp` (`data`, `prepare`, `commit`,
`consume`), `detail/impl/workspace.hpp` (`undo`, `emplace`, `push_array`) and the constant
`serializer::chunked_overhead_` of `serializer.hpp`.

Conventions.
* A byte is a natural number; the input range `[start, end)` is a `List Nat`.
  Numbers above 255 belong to no character class.
* A pointer into the input is its offset from `start`; `end` is `s.length`.
* `for(;;)` and `while` loops run on a fuel argument and return `none` when the
  fuel is exhausted; the entry points supply fuel and are proved total.
* `std::size_t` values are natural numbers below `2 ^ 64`; sums and differences wrap, a
  remainder by zero gives `none`.
-/

namespace http_proto

/-! ## Character classes (bnf/ctype.hpp) -/

/-- Modelled from the spec: `ws_set::contains` of bnf/ctype.hpp, which is not part of the
sources at hand. The spec gives whitespace as `SP` / `HTAB`. -/
def ws_set.contains (c : Nat) : Bool :=
  c == 32 || c == 9

/-- Modelled from the spec: `tchar_set::contains` of bnf/ctype.hpp, which is not part of the
sources at hand. The spec's glossary gives the RFC 7230 token characters: letters, digits
and the fifteen punctuation bytes ! # $ % & ' * + - . ^ _ (backquote) | ~ . -/
def tchar_set.contains (c : Nat) : Bool :=
  (48 ≤ c && c ≤ 57) || (65 ≤ c && c ≤ 90) || (97 ≤ c && c ≤ 122) ||
  c == 33 || c == 35 || c == 36 || c == 37 || c == 38 || c == 39 || c == 42 ||
  c == 43 || c == 45 || c == 46 || c == 94 || c == 95 || c == 96 || c == 124 || c == 126

/-- Modelled from the spec: `field_vchar_set::contains` of bnf/ctype.hpp, which is not part
of the sources at hand. The spec refers to RFC 7230, where
`field-vchar = VCHAR / obs-text`, that is the bytes 0x21-0x7E and 0x80-0xFF. -/
def field_vchar_set.contains (c : Nat) : Bool :=
  (33 ≤ c && c ≤ 126) || (128 ≤ c && c ≤ 255)

/-- Modelled from the spec: the `skip(it, end)` member of the character classes of
bnf/ctype.hpp, which is not part of the sources at hand: it returns the first position at
or after `it` that is `end` or holds a byte outside the class. -/
def skip (contains : Nat → Bool) (s : List Nat) (it : Nat) : Nat :=
  it + ((s.drop it).takeWhile contains).length

/-! ## Data model -/

/-- The error codes `header_fields::increment` stores in `ec` (error.hpp). -/
inductive error where
  | need_more
  | end_
  | bad_field_name
  | bad_line_ending
  | bad_field_value
  deriving DecidableEq

/-- A `string_view` into the input: offset of its first byte from `start`, and its size. -/
structure string_view where
  ptr : Nat
  len : Nat
  deriving DecidableEq

/-- The bytes a `string_view` denotes in the buffer `s`. -/
def string_view.bytes (sv : string_view) (s : List Nat) : List Nat :=
  (s.drop sv.ptr).take sv.len

/-- The member `v_` of `header_fields`: the current field. -/
structure value_type where
  name : string_view
  value : string_view
  has_obs_fold : Bool
  deriving DecidableEq

/-- What one call of `header_fields::increment` leaves behind: the returned pointer (offset
from `start`), the code stored in `ec` (`none` when `ec` is not assigned, which is the
path that parsed a field) and the member `v_`. -/
structure increment_result where
  it : Nat
  ec : Option error
  v : value_type
  deriving DecidableEq

/-- The early exit `ec = e; return start;`. -/
def fail_with (e : error) (v : value_type) : increment_result :=
  ⟨0, some e, v⟩

/-! ## header_fields::increment -/

/-- The loop `for(;;)` of `header_fields::increment` (lines 91-164) together with the
statements after its `break` (lines 166-170). `k1` is the end of the name, `it` the
cursor, `v0` the start of the value (`none` for `nullptr`), `v1` the end of the value and
`v` the member `v_`. -/
def increment_loop (k1 : Nat) (s : List Nat) :
    Nat → Nat → Option Nat → Nat → value_type → Option increment_result
  | 0, _, _, _, _ => none
  | fuel + 1, it, v0, v1, v =>
    if it = s.length then
      some (fail_with error.need_more v)
    else if field_vchar_set.contains (s.getD it 0) then
      -- field-content
      let v0 := if v0.isNone then some it else v0
      let it := skip field_vchar_set.contains s (it + 1)
      if it = s.length then
        some (fail_with error.need_more v)
      else
        increment_loop k1 s fuel it v0 it v
    else if ws_set.contains (s.getD it 0) then
      -- OWS
      increment_loop k1 s fuel (skip ws_set.contains s (it + 1)) v0 v1 v
    else if s.getD it 0 = 13 then
      -- obs-fold / CRLF
      if s.length - it < 3 then
        some (fail_with error.need_more v)
      else if s.getD (it + 1) 0 ≠ 10 then
        some (fail_with error.bad_line_ending v)
      else if ! ws_set.contains (s.getD (it + 2) 0) then
        -- end of line
        let v0 := if v0.isNone then some it else v0
        let v1 := it
        let it := it + 2
        some ⟨it, none,
          { name := ⟨0, k1⟩, value := ⟨v0.getD 0, v1 - v0.getD 0⟩,
            has_obs_fold := v.has_obs_fold }⟩
      else
        increment_loop k1 s fuel (skip ws_set.contains s (it + 3)) v0 v1
          { v with has_obs_fold := true }
    else
      -- illegal value
      some (fail_with error.bad_field_value v)

/-- The function `header_fields::increment(start, end, ec)` on the input `s` with the member
`v_` equal to `v` on entry. -/
def header_fields.increment (s : List Nat) (v : value_type) : Option increment_result :=
  if 0 = s.length then
    some (fail_with error.need_more v)
  else if s.getD 0 0 = 13 then
    if 1 = s.length then
      some (fail_with error.need_more v)
    else if s.getD 1 0 ≠ 10 then
      some (fail_with error.bad_line_ending v)
    else
      some ⟨2, some error.end_, v⟩
  else
    -- field-name
    let it := skip tchar_set.contains s 0
    if it = s.length then
      some (fail_with error.need_more v)
    else if s.getD it 0 ≠ 58 then
      some (fail_with error.bad_field_name v)
    else if it = 0 then
      some (fail_with error.bad_field_name v)
    else
      let k1 := it
      let it := skip ws_set.contains s (it + 1)
      increment_loop k1 s (s.length + 1) it none 0 v

/-! ## replace_obs_fold -/

/-- The loop `while(it != end)` of `replace_obs_fold` (lines 179-200) over the buffer `buf`
with cursor `it`. The flag records whether every `BOOST_ASSERT(it[1] == '\n')` reached so
far held; the assertion itself does nothing. -/
def replace_obs_fold_loop :
    Nat → List Nat → Nat → Bool → Option (List Nat × Bool)
  | 0, _, _, _ => none
  | fuel + 1, buf, it, ok =>
    if it = buf.length then
      some (buf, ok)
    else if buf.getD it 0 ≠ 13 then
      replace_obs_fold_loop fuel buf (it + 1) ok
    else if buf.length - it < 3 then
      some (buf, ok)
    else
      let ok := ok && (buf.getD (it + 1) 0 == 10)
      if buf.getD (it + 1) 0 = 10 ∧ ws_set.contains (buf.getD (it + 2) 0) = true then
        replace_obs_fold_loop fuel ((buf.set it 32).set (it + 1) 32) (it + 3) ok
      else
        replace_obs_fold_loop fuel buf (it + 1) ok

/-- The function `replace_obs_fold(it, end)` run over the whole buffer `b`: the buffer
afterwards and whether every assertion held. -/
def replace_obs_fold (b : List Nat) : Option (List Nat × Bool) :=
  replace_obs_fold_loop (b.length + 1) b 0 true

/-- The bytes of a text, as the parser receives them. -/
def bytes (t : String) : List Nat :=
  t.toList.map Char.toNat

/-- A field state to start from: empty views and `has_obs_fold = false`. -/
def value_type.init : value_type :=
  ⟨⟨0, 0⟩, ⟨0, 0⟩, false⟩

/-! ## Byte-at-a-time reading of the value loop -/

/-- The value loop read one byte at a time over the bytes from the cursor on: the runs
that `skip` jumps over are taken byte by byte. `increment_loop_eq_scan` shows that the
loop computes this function. -/
def scan (k1 : Nat) : List Nat → Nat → Option Nat → value_type → increment_result
  | [], _, _, v => fail_with error.need_more v
  | c :: rest, it, v0, v =>
    if field_vchar_set.contains c then
      scan k1 rest (it + 1) (if v0.isNone then some it else v0) v
    else if ws_set.contains c then
      scan k1 rest (it + 1) v0 v
    else if c = 13 then
      match rest with
      | d :: e :: rest' =>
        if d ≠ 10 then
          fail_with error.bad_line_ending v
        else if ! ws_set.contains e then
          ⟨it + 2, none,
            { name := ⟨0, k1⟩,
              value := ⟨(if v0.isNone then some it else v0).getD 0,
                it - (if v0.isNone then some it else v0).getD 0⟩,
              has_obs_fold := v.has_obs_fold }⟩
        else
          scan k1 rest' (it + 3) v0 { v with has_obs_fold := true }
      | _ => fail_with error.need_more v
    else
      fail_with error.bad_field_value v

/-- The whole of `header_fields::increment` read off the bytes of the input: the name is
the longest run of tchar bytes, the value is read by `scan`. `increment_eq` shows that
`header_fields.increment` computes this function. -/
def increment_fn (s : List Nat) (v : value_type) : increment_result :=
  match s with
  | [] => fail_with error.need_more v
  | c :: rest =>
    if c = 13 then
      match rest with
      | [] => fail_with error.need_more v
      | d :: _ => if d ≠ 10 then fail_with error.bad_line_ending v else ⟨2, some error.end_, v⟩
    else
      match (c :: rest).dropWhile tchar_set.contains with
      | [] => fail_with error.need_more v
      | x :: rest' =>
        if x ≠ 58 then
          fail_with error.bad_field_name v
        else if ((c :: rest).takeWhile tchar_set.contains).length = 0 then
          fail_with error.bad_field_name v
        else
          scan ((c :: rest).takeWhile tchar_set.contains).length rest'
            (((c :: rest).takeWhile tchar_set.contains).length + 1) none v

/-! ## The grammar of a field value -/

/-- The bytes between the colon and the closing CR LF of a grammatical field: a
concatenation of field-vchar bytes, SP, HTAB and obs-fold triples CR LF (SP|HTAB). -/
inductive value_bytes : List Nat → Prop where
  | nil : value_bytes []
  | vchar (c : Nat) (B : List Nat) :
      field_vchar_set.contains c = true → value_bytes B → value_bytes (c :: B)
  | ws (c : Nat) (B : List Nat) :
      ws_set.contains c = true → value_bytes B → value_bytes (c :: B)
  | fold (c : Nat) (B : List Nat) :
      ws_set.contains c = true → value_bytes B → value_bytes (13 :: 10 :: c :: B)

/-- Whether the bytes begin with an obs-fold triple CR LF (SP|HTAB). -/
def starts_with_fold (l : List Nat) : Bool :=
  l.getD 0 0 == 13 && l.getD 1 0 == 10 && ws_set.contains (l.getD 2 0)

/-- Whether the bytes contain a CR LF (SP|HTAB) sequence. -/
def contains_obs_fold : List Nat → Bool
  | [] => false
  | c :: rest => starts_with_fold (c :: rest) || contains_obs_fold rest

/-- The bytes with their leading run of SP/HTAB bytes and obs-fold triples removed. -/
def trim_leading : List Nat → List Nat
  | [] => []
  | c :: rest =>
    if ws_set.contains c then
      trim_leading rest
    else if c = 13 then
      match rest with
      | d :: e :: rest' =>
        if d = 10 ∧ ws_set.contains e = true then trim_leading rest' else c :: rest
      | _ => c :: rest
    else
      c :: rest

/-! ## Byte-at-a-time reading of replace_obs_fold -/

/-- The buffer after `replace_obs_fold`, read off the bytes from the cursor on.
`replace_obs_fold_loop_eq` shows that the loop computes this function. -/
def replace_obs_fold_fn : List Nat → List Nat
  | [] => []
  | c :: rest =>
    if c ≠ 13 then
      c :: replace_obs_fold_fn rest
    else
      match rest with
      | d :: e :: rest' =>
        if d = 10 ∧ ws_set.contains e = true then
          32 :: 32 :: e :: replace_obs_fold_fn rest'
        else
          c :: replace_obs_fold_fn (d :: e :: rest')
      | _ => c :: rest

/-- Whether every `BOOST_ASSERT(it[1] == '\n')` that `replace_obs_fold` reaches holds, read
off the bytes from the cursor on. -/
def replace_obs_fold_asserts : List Nat → Bool
  | [] => true
  | c :: rest =>
    if c ≠ 13 then
      replace_obs_fold_asserts rest
    else
      match rest with
      | d :: e :: rest' =>
        (d == 10) &&
          (if d = 10 ∧ ws_set.contains e = true then
            replace_obs_fold_asserts rest'
          else
            replace_obs_fold_asserts (d :: e :: rest'))
      | _ => true

/-- Whether an obs-fold triple CR LF (SP|HTAB) starts at position `i` of `b`. -/
def fold_at (b : List Nat) (i : Nat) : Bool :=
  starts_with_fold (b.drop i)

/-- Whether position `i` of `b` holds the CR or the LF of an obs-fold triple
CR LF (SP|HTAB). -/
def rewritten_at (b : List Nat) (i : Nat) : Bool :=
  fold_at b i || (decide (1 ≤ i) && fold_at b (i - 1))

/-- In the bytes `l` every LF is immediately preceded by CR and every CR is immediately
followed by LF. -/
def crlf_paired (l : List Nat) : Prop :=
  ∀ i, (l[i]? = some 10 → 1 ≤ i ∧ l[i - 1]? = some 13) ∧
    (l[i]? = some 13 → l[i + 1]? = some 10)

/-! ## circular_buffer (detail/impl/circular_buffer.ipp)

Members of type `std::size_t` are natural numbers below `2 ^ 64`; their sums and differences
wrap. A pointer into the region is its offset from `base_`. -/

/-- Addition of two `std::size_t` values. -/
def size_add (a b : Nat) : Nat :=
  (a + b) % 2 ^ 64

/-- Subtraction of two `std::size_t` values. -/
def size_sub (a b : Nat) : Nat :=
  (a + 2 ^ 64 - b) % 2 ^ 64

/-- The remainder `a % b` of two `std::size_t` values; `none` when `b` is zero, where the
operation is undefined. -/
def size_rem (a b : Nat) : Option Nat :=
  if b = 0 then none else some (a % b)

/-- A `const_buffer`: the offset of its first byte from `base_`, and its size. -/
structure const_buffer where
  data : Nat
  size : Nat
  deriving DecidableEq

/-- A `mutable_buffer`: the offset of its first byte from `base_`, and its size. -/
structure mutable_buffer where
  data : Nat
  size : Nat
  deriving DecidableEq

/-- The members `cap_`, `in_pos_` and `in_len_` of `circular_buffer`. -/
structure circular_buffer where
  cap_ : Nat
  in_pos_ : Nat
  in_len_ : Nat
  deriving DecidableEq

/-- The members hold `std::size_t` values. -/
def circular_buffer.is_size_t (b : circular_buffer) : Prop :=
  b.cap_ < 2 ^ 64 ∧ b.in_pos_ < 2 ^ 64 ∧ b.in_len_ < 2 ^ 64

instance circular_buffer.decidable_is_size_t (b : circular_buffer) :
    Decidable b.is_size_t := by
  unfold circular_buffer.is_size_t
  infer_instance

/-- The constructor `circular_buffer(base, capacity)`: `in_pos_` and `in_len_` start at 0. -/
def circular_buffer.ctor (capacity : Nat) : circular_buffer :=
  ⟨capacity, 0, 0⟩

/-- The function `circular_buffer::data()`. -/
def circular_buffer.data (b : circular_buffer) : const_buffer × const_buffer :=
  if size_add b.in_pos_ b.in_len_ ≤ b.cap_ then
    (⟨b.in_pos_, b.in_len_⟩, ⟨0, 0⟩)
  else
    (⟨b.in_pos_, size_sub b.cap_ b.in_pos_⟩,
      ⟨0, size_sub b.in_len_ (size_sub b.cap_ b.in_pos_)⟩)

/-- The function `circular_buffer::prepare()`; `none` when the remainder by `cap_` is
undefined. -/
def circular_buffer.prepare (b : circular_buffer) : Option (mutable_buffer × mutable_buffer) :=
  let n := size_sub b.cap_ b.in_len_
  match size_rem (size_add b.in_pos_ b.in_len_) b.cap_ with
  | none => none
  | some out_pos =>
    if size_add out_pos n ≤ b.cap_ then
      some (⟨out_pos, n⟩, ⟨0, size_sub n (size_sub b.cap_ out_pos)⟩)
    else
      some (⟨out_pos, size_sub b.cap_ out_pos⟩, ⟨0, size_sub n (size_sub b.cap_ out_pos)⟩)

/-- The precondition `BOOST_ASSERT(n <= cap_ - in_len_)` of `circular_buffer::commit`. -/
def circular_buffer.commit_pre (b : circular_buffer) (n : Nat) : Prop :=
  n ≤ size_sub b.cap_ b.in_len_

instance circular_buffer.decidable_commit_pre (b : circular_buffer) (n : Nat) :
    Decidable (b.commit_pre n) := by
  unfold circular_buffer.commit_pre
  infer_instance

/-- The function `circular_buffer::commit(n)`. -/
def circular_buffer.commit (b : circular_buffer) (n : Nat) : circular_buffer :=
  { b with in_len_ := size_add b.in_len_ n }

/-- The function `circular_buffer::consume(n)`; `none` when the remainder by `cap_` is
undefined. -/
def circular_buffer.consume (b : circular_buffer) (n : Nat) : Option circular_buffer :=
  if n < b.in_len_ then
    match size_rem (size_add b.in_pos_ n) b.cap_ with
    | none => none
    | some p => some { b with in_pos_ := p, in_len_ := size_sub b.in_len_ n }
  else
    -- make prepare return a bigger single buffer
    some { b with in_pos_ := 0, in_len_ := 0 }

/-- The operands `(a, b)` of the remainders `a % b` that `circular_buffer::consume(n)`
evaluates. -/
def circular_buffer.consume_remainders (b : circular_buffer) (n : Nat) : List (Nat × Nat) :=
  if n < b.in_len_ then [(size_add b.in_pos_ n, b.cap_)] else []

/-- The operands `(a, b)` of the remainders `a % b` that `circular_buffer::prepare()`
evaluates. -/
def circular_buffer.prepare_remainders (b : circular_buffer) : List (Nat × Nat) :=
  [(size_add b.in_pos_ b.in_len_, b.cap_)]

/-- The largest size of an object in memory, `PTRDIFF_MAX`. -/
def PTRDIFF_MAX : Nat :=
  2 ^ 63 - 1

/-- The total size of a pair of buffers, a `std::size_t` sum. -/
def buffer_size (p : const_buffer × const_buffer) : Nat :=
  size_add p.1.size p.2.size

/-- The operands `(a, b)` of the subtractions `a - b` that `circular_buffer::data()`
evaluates, in the order of the source. -/
def circular_buffer.data_subtractions (b : circular_buffer) : List (Nat × Nat) :=
  if size_add b.in_pos_ b.in_len_ ≤ b.cap_ then
    []
  else
    [(b.cap_, b.in_pos_), (b.cap_, b.in_pos_), (b.in_len_, size_sub b.cap_ b.in_pos_)]

/-- The readable bytes of the buffer over the region `mem`: the bytes of the first range of
`data()` followed by those of the second. -/
def circular_buffer.contents (b : circular_buffer) (mem : List Nat) : List Nat :=
  (mem.drop b.data.1.data).take b.data.1.size ++ (mem.drop b.data.2.data).take b.data.2.size

/-- The position of the `j`-th byte written into a pair of writable ranges: the ranges are
filled in order, the first and then the second. -/
def write_pos (p : mutable_buffer × mutable_buffer) (j : Nat) : Nat :=
  if j < p.1.size then p.1.data + j else p.2.data + (j - p.1.size)

/-- The region after the bytes `w` are written, from the `j`-th position on, into a pair
of writable ranges. -/
def write_bytes (p : mutable_buffer × mutable_buffer) : List Nat → Nat → List Nat → List Nat
  | mem, _, [] => mem
  | mem, j, x :: w => write_bytes p (mem.set (write_pos p j) x) (j + 1) w

/-- The states a buffer of the given capacity goes through: constructed, then any sequence
of `commit(n)` calls that meet the precondition and of `consume(n)` calls. -/
inductive circular_buffer.reachable (capacity : Nat) : circular_buffer → Prop where
  | ctor : circular_buffer.reachable capacity (circular_buffer.ctor capacity)
  | commit (b : circular_buffer) (n : Nat) :
      circular_buffer.reachable capacity b → b.commit_pre n →
      circular_buffer.reachable capacity (b.commit n)
  | consume (b : circular_buffer) (n : Nat) (b' : circular_buffer) :
      circular_buffer.reachable capacity b → b.consume n = some b' →
      circular_buffer.reachable capacity b'

/-! ## serializer (serializer.hpp) -/

/-- The constant `serializer::chunked_overhead_`. -/
def serializer.chunked_overhead_ : Nat :=
  16 +        -- size
  2 +         -- CRLF
  2 +         -- CRLF
  1 +         -- "0"
  2 +         -- CRLF
  2           -- CRLF

/-- The number of hexadecimal digits of `n`. -/
def hex_digits (n : Nat) : Nat :=
  (Nat.toDigits 16 n).length

/-! ## workspace (detail/impl/workspace.hpp)

An address is a natural number, 0 for `nullptr`. -/

/-- The member `head_` of `workspace`, and the member `next` of the `any` object at each
address of its region. -/
structure workspace where
  head_ : Nat
  any_next : Nat → Nat

/-- The member `head_` of `workspace::undo`. -/
structure workspace.undo where
  head_ : Nat

/-- The constructor `undo(workspace& ws0)`. -/
def workspace.undo.ctor (ws0 : workspace) : workspace.undo :=
  ⟨ws0.head_⟩

/-- The destructor `~undo()`, acting on the workspace it refers to. -/
def workspace.undo.dtor (u : workspace.undo) (ws : workspace) : workspace :=
  if u.head_ ≠ 0 then { ws with head_ := u.head_ } else ws

/-- The function `undo::commit()`. -/
def workspace.undo.commit (_u : workspace.undo) : workspace.undo :=
  ⟨0⟩

/-- The function `workspace::emplace<T>(args...)`. `bump_down` is what the call
`bump_down(sizeof(U), alignof(U))` returns, `none` when it throws; `construct` tells whether
the constructor of `U` returns, `false` when it throws. The result is the workspace after
the call and the address of the new node, `none` when an exception leaves the call. -/
def workspace.emplace (ws : workspace) (bump_down : Option Nat) (construct : Bool) :
    workspace × Option Nat :=
  let u := workspace.undo.ctor ws
  let prev_head := ws.head_
  match bump_down with
  | none => (u.dtor ws, none)
  | some p =>
    let ws := { ws with head_ := p }
    -- ::new(head_) U(...): the base `any` comes first, with next = nullptr
    let ws := { ws with any_next := fun a => if a = p then 0 else ws.any_next a }
    if construct = false then
      (u.dtor ws, none)
    else
      let u := u.commit
      let ws := { ws with any_next := fun a => if a = p then prev_head else ws.any_next a }
      (u.dtor ws, some p)

/-- The function `workspace::push_array<T>(n, t)`. `bump_down` is what the call
`bump_down(sizeof(U) + n * sizeof(T), alignof(::max_align_t))` returns, `none` when it
throws; `construct` tells whether the constructor `U(n, t)` returns, `false` when a copy of
`t` throws. The result is the workspace after the call and the address of the new node,
`none` when an exception leaves the call. -/
def workspace.push_array (ws : workspace) (bump_down : Option Nat) (construct : Bool) :
    workspace × Option Nat :=
  let u := workspace.undo.ctor ws
  let prev_head := ws.head_
  match bump_down with
  | none => (u.dtor ws, none)
  | some p =>
    let ws := { ws with head_ := p }
    -- ::new(head_) U(n, t): the base `any` comes first, with next = nullptr
    let ws := { ws with any_next := fun a => if a = p then 0 else ws.any_next a }
    if construct = false then
      (u.dtor ws, none)
    else
      let u := u.commit
      let ws := { ws with any_next := fun a => if a = p then prev_head else ws.any_next a }
      (u.dtor ws, some p)

/-- A call of `emplace` or `push_array` in which `bump_down` returned the address `p` and
the constructor returned. -/
inductive workspace.call where
  | emplace (p : Nat)
  | push_array (p : Nat)

/-- The address `bump_down` returned in the call. -/
def workspace.call.addr : workspace.call → Nat
  | workspace.call.emplace p => p
  | workspace.call.push_array p => p

/-- The workspace after a successful call. -/
def workspace.step (ws : workspace) : workspace.call → workspace
  | workspace.call.emplace p => (ws.emplace (some p) true).1
  | workspace.call.push_array p => (ws.push_array (some p) true).1

/-- The workspace after a sequence of successful calls. -/
def workspace.run (ws : workspace) : List workspace.call → workspace
  | [] => ws
  | c :: cs => workspace.run (ws.step c) cs

/-- Modelled from the spec: `workspace::bump_down` is not part of the sources at hand. The
spec has allocations grow downward from the high end of the region, with no reallocation:
in every call of the sequence the address `bump_down` returns lies strictly below the
`head_` of that moment. -/
def workspace.grows_down : workspace → List workspace.call → Prop
  | _, [] => True
  | ws, c :: cs => c.addr < ws.head_ ∧ workspace.grows_down (ws.step c) cs

/-- The addresses visited by following `k` next links, starting at `p`. -/
def workspace.chain (ws : workspace) : Nat → Nat → List Nat
  | 0, _ => []
  | k + 1, p => p :: workspace.chain ws k (ws.any_next p)

/-- The address reached after following `k` next links, starting at `p`. -/
def workspace.walk (ws : workspace) : Nat → Nat → Nat
  | 0, p => p
  | k + 1, p => workspace.walk ws k (ws.any_next p)

/-! ## Facts about the character classes -/

theorem ws_iff (c : Nat) : ws_set.contains c = true ↔ c = 32 ∨ c = 9 := by
  simp [ws_set.contains]

theorem fv_bounds (c : Nat) (h : field_vchar_set.contains c = true) : 33 ≤ c := by
  simp [field_vchar_set.contains] at h
  omega

theorem tchar_bounds (c : Nat) (h : tchar_set.contains c = true) : 33 ≤ c ∧ c ≠ 58 := by
  simp [tchar_set.contains] at h
  omega

/-! ## Facts about skip -/

theorem drop_takeWhile_length (p : Nat → Bool) (l : List Nat) :
    l.drop (l.takeWhile p).length = l.dropWhile p := by
  induction l with
  | nil => rfl
  | cons a l ih =>
    by_cases h : p a = true
    · simp [List.takeWhile_cons, List.dropWhile_cons, h, ih]
    · simp [List.takeWhile_cons, List.dropWhile_cons, h]

theorem takeWhile_length_le (p : Nat → Bool) (l : List Nat) :
    (l.takeWhile p).length ≤ l.length := by
  induction l with
  | nil => simp
  | cons a l ih =>
    by_cases h : p a = true
    · simp [List.takeWhile_cons, h, ih]
    · simp [List.takeWhile_cons, h]

theorem skip_le (p : Nat → Bool) (s : List Nat) (it : Nat) (h : it ≤ s.length) :
    skip p s it ≤ s.length := by
  have := takeWhile_length_le p (s.drop it)
  simp only [List.length_drop] at this
  unfold skip
  omega

theorem le_skip (p : Nat → Bool) (s : List Nat) (it : Nat) : it ≤ skip p s it := by
  unfold skip
  omega

theorem drop_skip (p : Nat → Bool) (s : List Nat) (it : Nat) :
    s.drop (skip p s it) = (s.drop it).dropWhile p := by
  unfold skip
  rw [← drop_takeWhile_length p (s.drop it), List.drop_drop]

theorem drop_eq_cons (s : List Nat) (it : Nat) (h : it < s.length) :
    s.drop it = s.getD it 0 :: s.drop (it + 1) := by
  rw [List.drop_eq_getElem_cons h]
  simp [List.getD_eq_getElem?_getD, List.getElem?_eq_getElem h]

/-! ## The loop computes the byte-at-a-time reading -/

theorem scan_cons (k1 c : Nat) (rest : List Nat) (it : Nat) (v0 : Option Nat)
    (v : value_type) :
    scan k1 (c :: rest) it v0 v =
      if field_vchar_set.contains c then
        scan k1 rest (it + 1) (if v0.isNone then some it else v0) v
      else if ws_set.contains c then
        scan k1 rest (it + 1) v0 v
      else if c = 13 then
        match rest with
        | d :: e :: rest' =>
          if d ≠ 10 then
            fail_with error.bad_line_ending v
          else if ! ws_set.contains e then
            ⟨it + 2, none,
              { name := ⟨0, k1⟩,
                value := ⟨(if v0.isNone then some it else v0).getD 0,
                  it - (if v0.isNone then some it else v0).getD 0⟩,
                has_obs_fold := v.has_obs_fold }⟩
          else
            scan k1 rest' (it + 3) v0 { v with has_obs_fold := true }
        | _ => fail_with error.need_more v
      else
        fail_with error.bad_field_value v := by
  rcases rest with _ | ⟨d, _ | ⟨e, rest'⟩⟩ <;> rfl

theorem scan_skip_ws (k1 : Nat) (l : List Nat) (it : Nat) (v0 : Option Nat) (v : value_type) :
    scan k1 (l.dropWhile ws_set.contains) (it + (l.takeWhile ws_set.contains).length) v0 v
      = scan k1 l it v0 v := by
  induction l generalizing it with
  | nil => simp
  | cons a l ih =>
    by_cases h : ws_set.contains a = true
    · have hf : field_vchar_set.contains a = false := by
        rcases (ws_iff a).1 h with rfl | rfl <;> decide
      rw [List.dropWhile_cons_of_pos h, List.takeWhile_cons_of_pos h]
      conv_rhs => rw [scan_cons]
      simp only [hf, h, if_true, Bool.false_eq_true, if_false]
      rw [← ih (it + 1)]
      simp only [List.length_cons]
      congr 1
      omega
    · rw [List.dropWhile_cons_of_neg h, List.takeWhile_cons_of_neg h]
      simp

theorem scan_skip_fv (k1 : Nat) (l : List Nat) (it : Nat) (v0 : Option Nat) (v : value_type)
    (h0 : v0.isNone = false) :
    scan k1 (l.dropWhile field_vchar_set.contains)
        (it + (l.takeWhile field_vchar_set.contains).length) v0 v
      = scan k1 l it v0 v := by
  induction l generalizing it with
  | nil => simp
  | cons a l ih =>
    by_cases h : field_vchar_set.contains a = true
    · rw [List.dropWhile_cons_of_pos h, List.takeWhile_cons_of_pos h]
      conv_rhs => rw [scan_cons]
      simp only [h, if_true, h0, Bool.false_eq_true, if_false]
      rw [← ih (it + 1)]
      simp only [List.length_cons]
      congr 1
      omega
    · rw [List.dropWhile_cons_of_neg h, List.takeWhile_cons_of_neg h]
      simp

theorem increment_loop_eq_scan (k1 : Nat) (s : List Nat) :
    ∀ (fuel it : Nat) (v0 : Option Nat) (v1 : Nat) (v : value_type),
      it ≤ s.length → s.length - it < fuel →
      increment_loop k1 s fuel it v0 v1 v = some (scan k1 (s.drop it) it v0 v) := by
  intro fuel
  induction fuel with
  | zero => intro it v0 v1 v _ h; omega
  | succ fuel ih =>
    intro it v0 v1 v hle hfuel
    rw [increment_loop]
    by_cases hend : it = s.length
    · subst hend
      simp [scan]
    · have hlt : it < s.length := by omega
      rw [if_neg hend, drop_eq_cons s it hlt]
      generalize hc : s.getD it 0 = c
      rw [scan_cons]
      by_cases hfv : field_vchar_set.contains c = true
      · simp only [hfv, if_true]
        have hsk := skip_le field_vchar_set.contains s (it + 1) (by omega)
        have hsk2 := le_skip field_vchar_set.contains s (it + 1)
        have hnone : (if v0.isNone = true then some it else v0).isNone = false := by
          cases v0 <;> simp
        rw [← scan_skip_fv k1 (s.drop (it + 1)) (it + 1) _ v hnone, ← drop_skip]
        by_cases he : skip field_vchar_set.contains s (it + 1) = s.length
        · rw [if_pos he, he]
          simp [scan]
        · rw [if_neg he, ih _ _ _ _ hsk (by omega)]
          rfl
      · simp only [hfv, Bool.false_eq_true, if_false]
        by_cases hws : ws_set.contains c = true
        · simp only [hws, if_true]
          have hsk := skip_le ws_set.contains s (it + 1) (by omega)
          have hsk2 := le_skip ws_set.contains s (it + 1)
          rw [← scan_skip_ws k1 (s.drop (it + 1)) (it + 1) v0 v, ← drop_skip,
            ih _ _ _ _ hsk (by omega)]
          rfl
        · simp only [hws, Bool.false_eq_true, if_false]
          by_cases hcr : c = 13
          · simp only [hcr, if_true]
            by_cases h3 : s.length - it < 3
            · rw [if_pos h3]
              have : (s.drop (it + 1)).length < 2 := by simp; omega
              match hm : s.drop (it + 1), this with
              | [], _ => rfl
              | [_], _ => rfl
            · rw [if_neg h3]
              have e1 : s.drop (it + 1) = s.getD (it + 1) 0 :: s.drop (it + 2) :=
                drop_eq_cons s (it + 1) (by omega)
              have e2 : s.drop (it + 2) = s.getD (it + 2) 0 :: s.drop (it + 3) :=
                drop_eq_cons s (it + 2) (by omega)
              rw [e1, e2]
              simp only
              by_cases hd : s.getD (it + 1) 0 = 10
              · simp only [hd, ne_eq, not_true_eq_false, if_false]
                by_cases he : ws_set.contains (s.getD (it + 2) 0) = true
                · simp only [he, Bool.not_true, Bool.false_eq_true, if_false]
                  have hsk := skip_le ws_set.contains s (it + 3) (by omega)
                  have hsk2 := le_skip ws_set.contains s (it + 3)
                  rw [← scan_skip_ws k1 (s.drop (it + 3)) (it + 3) v0, ← drop_skip,
                    ih _ _ _ _ hsk (by omega)]
                  rfl
                · simp only [he, Bool.not_false, if_true]
              · simp only [hd, ne_eq, not_false_eq_true, if_true]
          · simp only [hcr, if_false]

theorem increment_eq (s : List Nat) (v : value_type) :
    header_fields.increment s v = some (increment_fn s v) := by
  unfold header_fields.increment increment_fn
  rcases s with _ | ⟨c, rest⟩
  · simp
  · have hlen : ¬ (0 = (c :: rest).length) := by simp
    rw [if_neg hlen]
    simp only [List.getD_cons_zero]
    by_cases hc : c = 13
    · simp only [hc, if_true]
      rcases rest with _ | ⟨d, rest'⟩
      · simp
      · simp only [List.length_cons, List.getD_cons_succ, List.getD_cons_zero]
        by_cases hd : d = 10 <;> simp [hd]
    · simp only [hc, if_false]
      generalize hs : c :: rest = s
      have hdrop := drop_skip tchar_set.contains s 0
      have hsk : skip tchar_set.contains s 0 = (s.takeWhile tchar_set.contains).length := by
        simp [skip]
      rw [List.drop_zero] at hdrop
      have hle := skip_le tchar_set.contains s 0 (by omega)
      by_cases he : skip tchar_set.contains s 0 = s.length
      · rw [if_pos he]
        rw [he, List.drop_length] at hdrop
        rw [← hdrop]
      · rw [if_neg he]
        have hcons := drop_eq_cons s _ (show skip tchar_set.contains s 0 < s.length by omega)
        rw [hdrop] at hcons
        rw [hcons]
        simp only
        rw [← hsk]
        by_cases hx : s.getD (skip tchar_set.contains s 0) 0 = 58
        · simp only [hx, ne_eq, not_true_eq_false, if_false]
          by_cases h0 : skip tchar_set.contains s 0 = 0
          · simp [h0]
          · rw [if_neg h0, if_neg h0]
            have hle2 := skip_le ws_set.contains s (skip tchar_set.contains s 0 + 1) (by omega)
            have hle3 := le_skip ws_set.contains s (skip tchar_set.contains s 0 + 1)
            rw [increment_loop_eq_scan _ _ _ _ _ _ _ hle2 (by omega), drop_skip]
            unfold skip
            rw [scan_skip_ws]
        · simp only [hx, ne_eq, not_false_eq_true, if_true]

/-! ## The cases of the byte-at-a-time reading -/

theorem ws_not_fv (c : Nat) (h : ws_set.contains c = true) :
    field_vchar_set.contains c = false := by
  rcases (ws_iff c).1 h with rfl | rfl <;> decide

theorem scan_nil (k1 it : Nat) (v0 : Option Nat) (v : value_type) :
    scan k1 [] it v0 v = fail_with error.need_more v := rfl

theorem scan_fv (k1 c : Nat) (rest : List Nat) (it : Nat) (v0 : Option Nat) (v : value_type)
    (h : field_vchar_set.contains c = true) :
    scan k1 (c :: rest) it v0 v
      = scan k1 rest (it + 1) (if v0.isNone then some it else v0) v := by
  rw [scan_cons, if_pos h]

theorem scan_ws (k1 c : Nat) (rest : List Nat) (it : Nat) (v0 : Option Nat) (v : value_type)
    (h : ws_set.contains c = true) :
    scan k1 (c :: rest) it v0 v = scan k1 rest (it + 1) v0 v := by
  rw [scan_cons, if_neg (by simp [ws_not_fv c h]), if_pos h]

theorem scan_cr_short (k1 : Nat) (rest : List Nat) (it : Nat) (v0 : Option Nat)
    (v : value_type) (h : rest.length < 2) :
    scan k1 (13 :: rest) it v0 v = fail_with error.need_more v := by
  rcases rest with _ | ⟨d, _ | ⟨e, rest'⟩⟩
  · rfl
  · rfl
  · simp only [List.length_cons] at h
    omega

theorem scan_cr_bad (k1 d e : Nat) (rest : List Nat) (it : Nat) (v0 : Option Nat)
    (v : value_type) (h : d ≠ 10) :
    scan k1 (13 :: d :: e :: rest) it v0 v = fail_with error.bad_line_ending v := by
  rw [scan_cons, if_neg (by decide), if_neg (by decide), if_pos rfl]
  simp only
  rw [if_pos h]

theorem scan_cr_end (k1 e : Nat) (rest : List Nat) (it : Nat) (v0 : Option Nat)
    (v : value_type) (h : ws_set.contains e = false) :
    scan k1 (13 :: 10 :: e :: rest) it v0 v
      = ⟨it + 2, none,
          { name := ⟨0, k1⟩,
            value := ⟨(if v0.isNone then some it else v0).getD 0,
              it - (if v0.isNone then some it else v0).getD 0⟩,
            has_obs_fold := v.has_obs_fold }⟩ := by
  rw [scan_cons, if_neg (by decide), if_neg (by decide), if_pos rfl]
  simp only
  rw [if_neg (by simp), if_pos (by simp [h])]

theorem scan_cr_fold (k1 e : Nat) (rest : List Nat) (it : Nat) (v0 : Option Nat)
    (v : value_type) (h : ws_set.contains e = true) :
    scan k1 (13 :: 10 :: e :: rest) it v0 v
      = scan k1 rest (it + 3) v0 { v with has_obs_fold := true } := by
  rw [scan_cons, if_neg (by decide), if_neg (by decide), if_pos rfl]
  simp only
  rw [if_neg (by simp), if_neg (by simp [h])]

theorem scan_other (k1 c : Nat) (rest : List Nat) (it : Nat) (v0 : Option Nat)
    (v : value_type) (hfv : field_vchar_set.contains c = false)
    (hws : ws_set.contains c = false) (hcr : c ≠ 13) :
    scan k1 (c :: rest) it v0 v = fail_with error.bad_field_value v := by
  rw [scan_cons, if_neg (by simp [hfv]), if_neg (by simp [hws]), if_neg hcr]

/-- Induction along the cases of `scan`. -/
theorem scan_induction {motive : List Nat → Prop}
    (nil : motive [])
    (fv : ∀ c rest, field_vchar_set.contains c = true → motive rest → motive (c :: rest))
    (ws : ∀ c rest, ws_set.contains c = true → motive rest → motive (c :: rest))
    (cr_short : ∀ rest, rest.length < 2 → motive (13 :: rest))
    (cr_bad : ∀ d e rest, d ≠ 10 → motive (13 :: d :: e :: rest))
    (cr_end : ∀ e rest, ws_set.contains e = false → motive (13 :: 10 :: e :: rest))
    (cr_fold : ∀ e rest, ws_set.contains e = true → motive rest →
      motive (13 :: 10 :: e :: rest))
    (other : ∀ c rest, field_vchar_set.contains c = false → ws_set.contains c = false →
      c ≠ 13 → motive (c :: rest))
    (l : List Nat) : motive l := by
  have key : ∀ n, ∀ l : List Nat, l.length = n → motive l := by
    intro n
    induction n using Nat.strong_induction_on with
    | _ n ih =>
      intro l hl
      rcases l with _ | ⟨c, rest⟩
      · exact nil
      · simp only [List.length_cons] at hl
        by_cases hfv : field_vchar_set.contains c = true
        · exact fv c rest hfv (ih rest.length (by omega) rest rfl)
        · by_cases hws : ws_set.contains c = true
          · exact ws c rest hws (ih rest.length (by omega) rest rfl)
          · simp only [Bool.not_eq_true] at hfv hws
            by_cases hcr : c = 13
            · subst hcr
              rcases rest with _ | ⟨d, _ | ⟨e, rest'⟩⟩
              · exact cr_short _ (by simp)
              · exact cr_short _ (by simp)
              · by_cases hd : d = 10
                · subst hd
                  by_cases he : ws_set.contains e = true
                  · simp only [List.length_cons] at hl
                    exact cr_fold e rest' he (ih rest'.length (by omega) rest' rfl)
                  · simp only [Bool.not_eq_true] at he
                    exact cr_end e rest' he
                · exact cr_bad d e rest' hd
            · exact other c rest hfv hws hcr
  exact key l.length l rfl

theorem scan_append (k1 : Nat) (t : List Nat) (l : List Nat) :
    ∀ (it : Nat) (v0 : Option Nat) (v : value_type),
      (scan k1 l it v0 v).ec ≠ some error.need_more →
      scan k1 (l ++ t) it v0 v = scan k1 l it v0 v := by
  induction l using scan_induction with
  | nil => intro it v0 v h; exact absurd rfl h
  | fv c rest hc ih =>
    intro it v0 v h
    rw [scan_fv _ _ _ _ _ _ hc] at h
    rw [List.cons_append, scan_fv _ _ _ _ _ _ hc, scan_fv _ _ _ _ _ _ hc]
    exact ih _ _ _ h
  | ws c rest hc ih =>
    intro it v0 v h
    rw [scan_ws _ _ _ _ _ _ hc] at h
    rw [List.cons_append, scan_ws _ _ _ _ _ _ hc, scan_ws _ _ _ _ _ _ hc]
    exact ih _ _ _ h
  | cr_short rest hr =>
    intro it v0 v h
    rw [scan_cr_short _ _ _ _ _ hr] at h
    exact absurd rfl h
  | cr_bad d e rest hd =>
    intro it v0 v _
    simp only [List.cons_append]
    rw [scan_cr_bad _ _ _ _ _ _ _ hd, scan_cr_bad _ _ _ _ _ _ _ hd]
  | cr_end e rest he =>
    intro it v0 v _
    simp only [List.cons_append]
    rw [scan_cr_end _ _ _ _ _ _ he, scan_cr_end _ _ _ _ _ _ he]
  | cr_fold e rest he ih =>
    intro it v0 v h
    rw [scan_cr_fold _ _ _ _ _ _ he] at h
    simp only [List.cons_append]
    rw [scan_cr_fold _ _ _ _ _ _ he, scan_cr_fold _ _ _ _ _ _ he]
    exact ih _ _ _ h
  | other c rest hfv hws hcr =>
    intro it v0 v _
    rw [List.cons_append, scan_other _ _ _ _ _ _ hfv hws hcr,
      scan_other _ _ _ _ _ _ hfv hws hcr]

/-! ## Acceptance and decomposition of a field value -/

theorem trim_leading_cons (c : Nat) (rest : List Nat) :
    trim_leading (c :: rest) =
      if ws_set.contains c then
        trim_leading rest
      else if c = 13 then
        match rest with
        | d :: e :: rest' =>
          if d = 10 ∧ ws_set.contains e = true then trim_leading rest' else c :: rest
        | _ => c :: rest
      else
        c :: rest := by
  rcases rest with _ | ⟨d, _ | ⟨e, rest'⟩⟩ <;> rfl

theorem trim_leading_ws (c : Nat) (B : List Nat) (h : ws_set.contains c = true) :
    trim_leading (c :: B) = trim_leading B := by
  rw [trim_leading_cons, if_pos h]

theorem trim_leading_fold (c : Nat) (B : List Nat) (h : ws_set.contains c = true) :
    trim_leading (13 :: 10 :: c :: B) = trim_leading B := by
  rw [trim_leading_cons, if_neg (by decide), if_pos rfl]
  simp [h]

theorem trim_leading_fv (c : Nat) (B : List Nat) (h : field_vchar_set.contains c = true) :
    trim_leading (c :: B) = c :: B := by
  have h1 : ws_set.contains c = false := by
    cases hw : ws_set.contains c
    · rfl
    · rw [ws_not_fv c hw] at h
      exact absurd h (by decide)
  have h2 : c ≠ 13 := by
    rintro rfl
    exact absurd h (by decide)
  rw [trim_leading_cons, if_neg (by simp [h1]), if_neg h2]

theorem trim_leading_length_le (B : List Nat) (hB : value_bytes B) :
    (trim_leading B).length ≤ B.length := by
  induction hB with
  | nil => simp [trim_leading]
  | vchar c B hc _ _ => rw [trim_leading_fv c B hc]
  | ws c B hc _ ih =>
    rw [trim_leading_ws c B hc]
    simp only [List.length_cons]
    omega
  | fold c B hc _ ih =>
    rw [trim_leading_fold c B hc]
    simp only [List.length_cons]
    omega

theorem contains_obs_fold_cons (c : Nat) (B : List Nat) (h : c ≠ 13) :
    contains_obs_fold (c :: B) = contains_obs_fold B := by
  simp [contains_obs_fold, starts_with_fold, h]

theorem contains_obs_fold_triple (c : Nat) (B : List Nat) (h : ws_set.contains c = true) :
    contains_obs_fold (13 :: 10 :: c :: B) = true := by
  simp [contains_obs_fold, starts_with_fold, h]

theorem fv_ne_cr (c : Nat) (h : field_vchar_set.contains c = true) : c ≠ 13 := by
  rintro rfl
  exact absurd h (by decide)

theorem ws_ne_cr (c : Nat) (h : ws_set.contains c = true) : c ≠ 13 := by
  rintro rfl
  exact absurd h (by decide)

/-- The result of `scan` on a grammatical value followed by CR LF and a byte that is not
whitespace. -/
theorem scan_accept (k1 c : Nat) (R B : List Nat) (hB : value_bytes B)
    (hc : ws_set.contains c = false) :
    ∀ (it : Nat) (v0 : Option Nat) (v : value_type),
      scan k1 (B ++ 13 :: 10 :: c :: R) it v0 v =
        ⟨it + B.length + 2, none,
          { name := ⟨0, k1⟩,
            value :=
              ⟨(if v0.isNone then some (it + (B.length - (trim_leading B).length))
                  else v0).getD 0,
                it + B.length -
                  (if v0.isNone then some (it + (B.length - (trim_leading B).length))
                    else v0).getD 0⟩,
            has_obs_fold := v.has_obs_fold || contains_obs_fold B }⟩ := by
  induction hB with
  | nil =>
    intro it v0 v
    rw [List.nil_append, scan_cr_end _ _ _ _ _ _ hc]
    simp [trim_leading, contains_obs_fold]
  | vchar a B ha hB ih =>
    intro it v0 v
    rw [List.cons_append, scan_fv _ _ _ _ _ _ ha, ih, trim_leading_fv a B ha,
      contains_obs_fold_cons a B (fv_ne_cr a ha)]
    cases v0 <;> simp <;> omega
  | ws a B ha hB ih =>
    intro it v0 v
    have := trim_leading_length_le B hB
    rw [List.cons_append, scan_ws _ _ _ _ _ _ ha, ih, trim_leading_ws a B ha,
      contains_obs_fold_cons a B (ws_ne_cr a ha)]
    cases v0 <;> simp <;> omega
  | fold a B ha hB ih =>
    intro it v0 v
    have := trim_leading_length_le B hB
    simp only [List.cons_append]
    rw [scan_cr_fold _ _ _ _ _ _ ha, ih, trim_leading_fold a B ha,
      contains_obs_fold_triple a B ha]
    cases v0 <;> simp <;> omega

/-- A successful `scan` read a grammatical value, CR LF and a byte that is not
whitespace. -/
theorem scan_decompose (k1 : Nat) (l : List Nat) :
    ∀ (it : Nat) (v0 : Option Nat) (v : value_type),
      (scan k1 l it v0 v).ec = none →
      ∃ B c R, l = B ++ 13 :: 10 :: c :: R ∧ value_bytes B ∧ ws_set.contains c = false := by
  induction l using scan_induction with
  | nil => intro it v0 v h; simp [scan_nil, fail_with] at h
  | fv a rest ha ih =>
    intro it v0 v h
    rw [scan_fv _ _ _ _ _ _ ha] at h
    obtain ⟨B, c, R, rfl, hB, hc⟩ := ih _ _ _ h
    exact ⟨a :: B, c, R, rfl, value_bytes.vchar a B ha hB, hc⟩
  | ws a rest ha ih =>
    intro it v0 v h
    rw [scan_ws _ _ _ _ _ _ ha] at h
    obtain ⟨B, c, R, rfl, hB, hc⟩ := ih _ _ _ h
    exact ⟨a :: B, c, R, rfl, value_bytes.ws a B ha hB, hc⟩
  | cr_short rest hr =>
    intro it v0 v h
    simp [scan_cr_short _ _ _ _ _ hr, fail_with] at h
  | cr_bad d e rest hd =>
    intro it v0 v h
    simp [scan_cr_bad _ _ _ _ _ _ _ hd, fail_with] at h
  | cr_end e rest he =>
    intro it v0 v _
    exact ⟨[], e, rest, rfl, value_bytes.nil, he⟩
  | cr_fold e rest he ih =>
    intro it v0 v h
    rw [scan_cr_fold _ _ _ _ _ _ he] at h
    obtain ⟨B, c, R, rfl, hB, hc⟩ := ih _ _ _ h
    exact ⟨13 :: 10 :: e :: B, c, R, rfl, value_bytes.fold e B he hB, hc⟩
  | other a rest hfv hws hcr =>
    intro it v0 v h
    simp [scan_other _ _ _ _ _ _ hfv hws hcr, fail_with] at h

/-! ## The whole call, case by case -/

theorem tchar_ne_cr (c : Nat) (h : tchar_set.contains c = true) : c ≠ 13 := by
  rintro rfl
  exact absurd h (by decide)

theorem increment_fn_nil (v : value_type) :
    increment_fn [] v = fail_with error.need_more v := rfl

theorem increment_fn_cr_nil (v : value_type) :
    increment_fn [13] v = fail_with error.need_more v := rfl

theorem increment_fn_cr_lf (R : List Nat) (v : value_type) :
    increment_fn (13 :: 10 :: R) v = ⟨2, some error.end_, v⟩ := rfl

theorem increment_fn_cr_other (d : Nat) (R : List Nat) (v : value_type) (h : d ≠ 10) :
    increment_fn (13 :: d :: R) v = fail_with error.bad_line_ending v := by
  simp [increment_fn, h]

theorem increment_fn_of_ne_cr (c : Nat) (rest : List Nat) (v : value_type) (hc : c ≠ 13) :
    increment_fn (c :: rest) v =
      match (c :: rest).dropWhile tchar_set.contains with
      | [] => fail_with error.need_more v
      | x :: rest' =>
        if x ≠ 58 then
          fail_with error.bad_field_name v
        else if ((c :: rest).takeWhile tchar_set.contains).length = 0 then
          fail_with error.bad_field_name v
        else
          scan ((c :: rest).takeWhile tchar_set.contains).length rest'
            (((c :: rest).takeWhile tchar_set.contains).length + 1) none v := by
  simp only [increment_fn, if_neg hc]

/-- On an input that does not start with CR, with `N` its longest run of tchar bytes. -/
theorem increment_fn_split (N : List Nat) (x : Nat) (X : List Nat) (v : value_type)
    (hN : ∀ a ∈ N, tchar_set.contains a = true) (hx : tchar_set.contains x = false)
    (hcr : (N ++ x :: X).head? ≠ some 13) :
    increment_fn (N ++ x :: X) v =
      if x ≠ 58 then fail_with error.bad_field_name v
      else if N.length = 0 then fail_with error.bad_field_name v
      else scan N.length X (N.length + 1) none v := by
  have htake : (N ++ x :: X).takeWhile tchar_set.contains = N := by
    rw [List.takeWhile_append_of_pos hN, List.takeWhile_cons_of_neg (by simp [hx])]
    simp
  have hdrop : (N ++ x :: X).dropWhile tchar_set.contains = x :: X := by
    rw [List.dropWhile_append_of_pos hN, List.dropWhile_cons_of_neg (by simp [hx])]
  generalize hs : N ++ x :: X = s at *
  rcases s with _ | ⟨c, rest⟩
  · simp at hs
  · have hc : c ≠ 13 := by
      intro h
      apply hcr
      simp [h]
    rw [increment_fn_of_ne_cr c rest v hc, hdrop]
    simp only [htake]

/-- Every input is empty, starts with CR, or splits into its longest run of tchar bytes and
a rest that is empty or starts with a byte that is not a tchar. -/
theorem header_split (s : List Nat) :
    s = [] ∨ (∃ R, s = 13 :: R) ∨
    (s ≠ [] ∧ s.head? ≠ some 13 ∧ (∀ a ∈ s, tchar_set.contains a = true)) ∨
    (∃ N x X, s = N ++ x :: X ∧ (∀ a ∈ N, tchar_set.contains a = true) ∧
      tchar_set.contains x = false ∧ s.head? ≠ some 13) := by
  rcases s with _ | ⟨c, rest⟩
  · exact Or.inl rfl
  · by_cases hc : c = 13
    · exact Or.inr (Or.inl ⟨rest, by rw [hc]⟩)
    · have hh : (c :: rest).head? ≠ some 13 := by simp [hc]
      generalize hs : c :: rest = s at *
      rcases hd : s.dropWhile tchar_set.contains with _ | ⟨x, X⟩
      · refine Or.inr (Or.inr (Or.inl ⟨by rw [← hs]; simp, hh, ?_⟩))
        exact List.dropWhile_eq_nil_iff.1 hd
      · refine Or.inr (Or.inr (Or.inr ⟨s.takeWhile tchar_set.contains, x, X, ?_, ?_, ?_, hh⟩))
        · rw [← hd, List.takeWhile_append_dropWhile]
        · intro a ha
          exact List.mem_takeWhile_imp ha
        · have := List.head_dropWhile_not tchar_set.contains s (by rw [hd]; simp)
          simpa [hd] using this

theorem increment_fn_all_tchar (s : List Nat) (v : value_type) (hne : s ≠ [])
    (hcr : s.head? ≠ some 13) (hall : ∀ a ∈ s, tchar_set.contains a = true) :
    increment_fn s v = fail_with error.need_more v := by
  rcases s with _ | ⟨c, rest⟩
  · exact absurd rfl hne
  · have hc : c ≠ 13 := by
      intro h
      apply hcr
      simp [h]
    rw [increment_fn_of_ne_cr c rest v hc, List.dropWhile_eq_nil_iff.2 hall]

theorem head?_append_ne (s t : List Nat) (hne : s ≠ []) (h : s.head? ≠ some 13) :
    (s ++ t).head? ≠ some 13 := by
  rcases s with _ | ⟨c, rest⟩
  · exact absurd rfl hne
  · simpa using h

/-- Extension stability of the whole call. -/
theorem increment_fn_append (s t : List Nat) (v : value_type)
    (h : (increment_fn s v).ec ≠ some error.need_more) :
    increment_fn (s ++ t) v = increment_fn s v := by
  rcases header_split s with rfl | ⟨R, rfl⟩ | ⟨hne, hcr, hall⟩ | ⟨N, x, X, rfl, hN, hx, hcr⟩
  · exact absurd rfl h
  · rcases R with _ | ⟨d, R⟩
    · exact absurd rfl h
    · by_cases hd : d = 10
      · subst hd
        rfl
      · simp only [List.cons_append]
        rw [increment_fn_cr_other d R v hd, increment_fn_cr_other d (R ++ t) v hd]
  · rw [increment_fn_all_tchar s v hne hcr hall] at h
    exact absurd rfl h
  · have hcr2 := head?_append_ne _ t (by simp) hcr
    rw [increment_fn_split N x X v hN hx hcr] at h ⊢
    rw [List.append_assoc, List.cons_append] at hcr2 ⊢
    rw [increment_fn_split N x (X ++ t) v hN hx hcr2]
    by_cases h58 : x = 58
    · by_cases h0 : N.length = 0
      · simp [h58, h0]
      · simp only [h58, ne_eq, not_true_eq_false, if_false, h0] at h ⊢
        exact scan_append _ t X _ _ _ h
    · simp [h58]

/-- A call that parsed a field read a grammatical field. -/
theorem increment_fn_decompose (s : List Nat) (v : value_type)
    (h : (increment_fn s v).ec = none) :
    ∃ N B c R, s = N ++ 58 :: (B ++ 13 :: 10 :: c :: R) ∧ N ≠ [] ∧
      (∀ a ∈ N, tchar_set.contains a = true) ∧ value_bytes B ∧
      ws_set.contains c = false := by
  rcases header_split s with rfl | ⟨R, rfl⟩ | ⟨hne, hcr, hall⟩ | ⟨N, x, X, rfl, hN, hx, hcr⟩
  · simp [increment_fn_nil, fail_with] at h
  · rcases R with _ | ⟨d, R⟩
    · simp [increment_fn_cr_nil, fail_with] at h
    · by_cases hd : d = 10
      · subst hd
        simp [increment_fn_cr_lf] at h
      · simp [increment_fn_cr_other d R v hd, fail_with] at h
  · simp [increment_fn_all_tchar s v hne hcr hall, fail_with] at h
  · rw [increment_fn_split N x X v hN hx hcr] at h
    by_cases h58 : x = 58
    · by_cases h0 : N.length = 0
      · simp [h58, h0, fail_with] at h
      · simp only [h58, ne_eq, not_true_eq_false, if_false, h0] at h
        obtain ⟨B, c, R, rfl, hB, hc⟩ := scan_decompose _ X _ _ _ h
        refine ⟨N, B, c, R, by rw [h58], ?_, hN, hB, hc⟩
        intro hnil
        exact h0 (by rw [hnil]; rfl)
    · simp [h58, fail_with] at h

/-- The result of the whole call on a grammatical field. -/
theorem increment_fn_accept (N B R : List Nat) (c : Nat) (v : value_type)
    (hne : N ≠ []) (hN : ∀ a ∈ N, tchar_set.contains a = true) (hB : value_bytes B)
    (hc : ws_set.contains c = false) :
    increment_fn (N ++ 58 :: (B ++ 13 :: 10 :: c :: R)) v =
      ⟨N.length + 1 + B.length + 2, none,
        { name := ⟨0, N.length⟩,
          value := ⟨N.length + 1 + (B.length - (trim_leading B).length),
            (trim_leading B).length⟩,
          has_obs_fold := v.has_obs_fold || contains_obs_fold B }⟩ := by
  have hcr : (N ++ 58 :: (B ++ 13 :: 10 :: c :: R)).head? ≠ some 13 := by
    rcases N with _ | ⟨a, N⟩
    · exact absurd rfl hne
    · have := tchar_ne_cr a (hN a (by simp))
      simpa using this
  have h0 : N.length ≠ 0 := by
    intro h
    exact hne (List.length_eq_zero.1 h)
  have hle := trim_leading_length_le B hB
  rw [increment_fn_split N 58 _ v hN (by decide) hcr]
  simp only [ne_eq, not_true_eq_false, if_false, h0]
  rw [scan_accept _ c R B hB hc]
  simp only [Option.isNone_none, if_true, Option.getD_some]
  congr 3
  omega

theorem scan_ec (k1 : Nat) (l : List Nat) :
    ∀ (it : Nat) (v0 : Option Nat) (v : value_type),
      (scan k1 l it v0 v).ec ≠ some error.end_ ∧
      (scan k1 l it v0 v).ec ≠ some error.bad_field_name := by
  induction l using scan_induction with
  | nil => intro it v0 v; simp [scan_nil, fail_with]
  | fv a rest ha ih => intro it v0 v; rw [scan_fv _ _ _ _ _ _ ha]; exact ih _ _ _
  | ws a rest ha ih => intro it v0 v; rw [scan_ws _ _ _ _ _ _ ha]; exact ih _ _ _
  | cr_short rest hr => intro it v0 v; simp [scan_cr_short _ _ _ _ _ hr, fail_with]
  | cr_bad d e rest hd => intro it v0 v; simp [scan_cr_bad _ _ _ _ _ _ _ hd, fail_with]
  | cr_end e rest he => intro it v0 v; simp [scan_cr_end _ _ _ _ _ _ he]
  | cr_fold e rest he ih => intro it v0 v; rw [scan_cr_fold _ _ _ _ _ _ he]; exact ih _ _ _
  | other a rest hfv hws hcr =>
    intro it v0 v; simp [scan_other _ _ _ _ _ _ hfv hws hcr, fail_with]

/-! ## Extension stability -/

/-- C1: if `header_fields::increment` on `s` returns any outcome other than need_more, then
on `s ++ t` it returns the same outcome: the same code, the same number of bytes consumed,
the same name and value ranges and the same has_obs_fold, from every initial field
state. -/
theorem increment_extension_stable (s t : List Nat) (v : value_type) (r : increment_result)
    (h : header_fields.increment s v = some r) (hne : r.ec ≠ some error.need_more) :
    header_fields.increment (s ++ t) v = some r := by
  rw [increment_eq] at h ⊢
  have hr : increment_fn s v = r := Option.some.inj h
  rw [← hr] at hne
  rw [increment_fn_append s t v hne, hr]

theorem increment_extension_stable_witness :
    header_fields.increment (bytes "a: 1\r\n\r\n" ++ bytes "b: 2") value_type.init
      = some ⟨6, none, ⟨⟨0, 1⟩, ⟨3, 1⟩, false⟩⟩ :=
  increment_extension_stable (bytes "a: 1\r\n\r\n") (bytes "b: 2") value_type.init
    ⟨6, none, ⟨⟨0, 1⟩, ⟨3, 1⟩, false⟩⟩ (by decide) (by decide)

/-! ## End of fields -/

/-- C6: on an input that begins with CR LF the outcome is error::end with exactly 2 bytes
consumed, whatever follows; on an input that begins with CR and a byte other than LF it is
bad_line_ending with nothing consumed; on the empty input and on the single byte CR it is
need_more with nothing consumed. The field state is left as it was. -/
theorem increment_end_of_fields :
    (∀ (R : List Nat) (v : value_type),
      header_fields.increment (13 :: 10 :: R) v = some ⟨2, some error.end_, v⟩) ∧
    (∀ (d : Nat) (R : List Nat) (v : value_type), d ≠ 10 →
      header_fields.increment (13 :: d :: R) v = some ⟨0, some error.bad_line_ending, v⟩) ∧
    (∀ v : value_type, header_fields.increment [] v = some ⟨0, some error.need_more, v⟩) ∧
    (∀ v : value_type, header_fields.increment [13] v = some ⟨0, some error.need_more, v⟩) := by
  refine ⟨?_, ?_, ?_, ?_⟩
  · intro R v
    rw [increment_eq, increment_fn_cr_lf]
  · intro d R v hd
    rw [increment_eq, increment_fn_cr_other d R v hd]
    rfl
  · intro v
    rfl
  · intro v
    rfl

theorem increment_end_of_fields_witness :
    header_fields.increment (bytes "\rx") value_type.init
      = some ⟨0, some error.bad_line_ending, value_type.init⟩ :=
  increment_end_of_fields.2.1 120 [] value_type.init (by decide)

/-! ## Malformed field names -/

theorem getElem?_append_length (l r : List Nat) (j : Nat) :
    (l ++ r)[l.length + j]? = r[j]? := by
  rw [List.getElem?_append_right (by omega)]
  congr 1
  omega

/-- C5: on a non-empty input whose first byte is not CR, `header_fields::increment` returns
bad_field_name exactly when the longest run of tchar bytes at the start is followed by a
byte that exists and is not a colon, or that run is empty. Each of the six malformed names
of the test, followed by CR LF CR LF, gives bad_field_name. -/
theorem increment_bad_field_name :
    (∀ (s : List Nat) (v : value_type), s ≠ [] → s.head? ≠ some 13 →
      ((∃ r, header_fields.increment s v = some r ∧ r.ec = some error.bad_field_name) ↔
        ((∃ x, s[(s.takeWhile tchar_set.contains).length]? = some x ∧ x ≠ 58) ∨
          (s.takeWhile tchar_set.contains).length = 0))) ∧
    header_fields.increment (bytes ":\r\n\r\n") value_type.init
      = some (fail_with error.bad_field_name value_type.init) ∧
    header_fields.increment (bytes " :\r\n\r\n") value_type.init
      = some (fail_with error.bad_field_name value_type.init) ∧
    header_fields.increment (bytes " x:\r\n\r\n") value_type.init
      = some (fail_with error.bad_field_name value_type.init) ∧
    header_fields.increment (bytes "x :\r\n\r\n") value_type.init
      = some (fail_with error.bad_field_name value_type.init) ∧
    header_fields.increment (bytes "x@\r\n\r\n") value_type.init
      = some (fail_with error.bad_field_name value_type.init) ∧
    header_fields.increment (bytes "x@:\r\n\r\n") value_type.init
      = some (fail_with error.bad_field_name value_type.init) := by
  refine ⟨?_, by decide, by decide, by decide, by decide, by decide, by decide⟩
  intro s v hne hcr
  rw [increment_eq]
  rcases header_split s with rfl | ⟨R, rfl⟩ | ⟨_, _, hall⟩ | ⟨N, x, X, rfl, hN, hx, _⟩
  · exact absurd rfl hne
  · exact absurd rfl hcr
  · rw [increment_fn_all_tchar s v hne hcr hall, List.takeWhile_eq_self_iff.2 hall]
    constructor
    · rintro ⟨r, hr, hec⟩
      rw [← Option.some.inj hr] at hec
      simp [fail_with] at hec
    · rintro (⟨x, hx, _⟩ | h0)
      · simp at hx
      · exact absurd (List.length_eq_zero.1 h0) hne
  · have htake : (N ++ x :: X).takeWhile tchar_set.contains = N := by
      rw [List.takeWhile_append_of_pos hN, List.takeWhile_cons_of_neg (by simp [hx])]
      simp
    have hget : (N ++ x :: X)[N.length]? = some x := by
      have := getElem?_append_length N (x :: X) 0
      simpa using this
    rw [increment_fn_split N x X v hN hx hcr, htake, hget]
    by_cases h58 : x = 58
    · by_cases h0 : N.length = 0
      · simp [h58, h0, fail_with]
      · simp only [h58, ne_eq, not_true_eq_false, if_false, h0]
        constructor
        · rintro ⟨r, hr, hec⟩
          rw [← Option.some.inj hr] at hec
          exact absurd hec (scan_ec _ _ _ _ _).2
        · rintro (⟨y, hy, hy58⟩ | h)
          · exact absurd (Option.some.inj hy).symm hy58
          · exact h.elim
    · simp [h58, fail_with]

theorem increment_bad_field_name_witness :
    (∃ r, header_fields.increment (bytes "x@:\r\n") value_type.init = some r ∧
        r.ec = some error.bad_field_name) ↔
      ((∃ x, (bytes "x@:\r\n")[((bytes "x@:\r\n").takeWhile tchar_set.contains).length]?
          = some x ∧ x ≠ 58) ∨
        ((bytes "x@:\r\n").takeWhile tchar_set.contains).length = 0) :=
  increment_bad_field_name.1 (bytes "x@:\r\n") value_type.init (by decide) (by decide)

/-! ## Acceptance of grammatical fields -/

theorem trim_leading_drop (B : List Nat) (hB : value_bytes B) :
    B.drop (B.length - (trim_leading B).length) = trim_leading B := by
  induction hB with
  | nil => rfl
  | vchar c B hc _ _ => rw [trim_leading_fv c B hc]; simp
  | ws c B hc hB ih =>
    have hle := trim_leading_length_le B hB
    rw [trim_leading_ws c B hc]
    have e : (c :: B).length - (trim_leading B).length
        = (B.length - (trim_leading B).length) + 1 := by
      simp only [List.length_cons]
      omega
    rw [e, List.drop_succ_cons, ih]
  | fold c B hc hB ih =>
    have hle := trim_leading_length_le B hB
    rw [trim_leading_fold c B hc]
    have e : (13 :: 10 :: c :: B).length - (trim_leading B).length
        = (B.length - (trim_leading B).length) + 1 + 1 + 1 := by
      simp only [List.length_cons]
      omega
    rw [e, List.drop_succ_cons, List.drop_succ_cons, List.drop_succ_cons, ih]

theorem trim_leading_no_vchar (B : List Nat) (hB : value_bytes B)
    (hno : ∀ b ∈ B, field_vchar_set.contains b = false) : trim_leading B = [] := by
  induction hB with
  | nil => rfl
  | vchar c B hc _ _ =>
    have := hno c (by simp)
    rw [hc] at this
    exact absurd this (by decide)
  | ws c B hc _ ih =>
    rw [trim_leading_ws c B hc]
    exact ih (fun b hb => hno b (by simp [hb]))
  | fold c B hc _ ih =>
    rw [trim_leading_fold c B hc]
    exact ih (fun b hb => hno b (by simp [hb]))

/-- The bytes of the value range that `increment_fn_accept` reports. -/
theorem value_bytes_of_accept (N B T : List Nat) (hB : value_bytes B) :
    string_view.bytes ⟨N.length + 1 + (B.length - (trim_leading B).length),
        (trim_leading B).length⟩ (N ++ 58 :: (B ++ T)) = trim_leading B := by
  have hle := trim_leading_length_le B hB
  unfold string_view.bytes
  simp only
  have e1 : N.length + 1 + (B.length - (trim_leading B).length)
      = (N ++ [58]).length + (B.length - (trim_leading B).length) := by
    simp only [List.length_append, List.length_singleton]
  have e2 : N ++ 58 :: (B ++ T) = (N ++ [58]) ++ (B ++ T) := by simp
  rw [e1, e2, ← List.drop_drop, List.drop_left, List.drop_append_of_le_length (by omega),
    trim_leading_drop B hB, List.take_left]

/-- C3: for every non-empty string `N` of tchar bytes, every grammatical value `B`, every
byte `c` that is not SP or HTAB and every suffix `R`, `header_fields::increment` on
`N ++ ":" ++ B ++ CR LF ++ [c] ++ R` parses a field, consumes exactly
`|N| + 1 + |B| + 2` bytes, reports the name `N` and reports as value `B` with its leading
run of SP/HTAB bytes and obs-fold triples removed, which is empty when `B` holds no
field-vchar byte. -/
theorem increment_accepts_field (N B R : List Nat) (c : Nat) (v : value_type)
    (hne : N ≠ []) (hN : ∀ a ∈ N, tchar_set.contains a = true) (hB : value_bytes B)
    (hc : c ≠ 32 ∧ c ≠ 9) :
    ∃ r, header_fields.increment (N ++ [58] ++ B ++ [13, 10] ++ [c] ++ R) v = some r ∧
      r.ec = none ∧
      r.it = N.length + 1 + B.length + 2 ∧
      r.v.name.bytes (N ++ [58] ++ B ++ [13, 10] ++ [c] ++ R) = N ∧
      r.v.value.bytes (N ++ [58] ++ B ++ [13, 10] ++ [c] ++ R) = trim_leading B ∧
      ((∀ b ∈ B, field_vchar_set.contains b = false) →
        r.v.value.bytes (N ++ [58] ++ B ++ [13, 10] ++ [c] ++ R) = []) := by
  have hws : ws_set.contains c = false := by
    cases h : ws_set.contains c
    · rfl
    · rcases (ws_iff c).1 h with h1 | h1
      · exact absurd h1 hc.1
      · exact absurd h1 hc.2
  have es : N ++ [58] ++ B ++ [13, 10] ++ [c] ++ R = N ++ 58 :: (B ++ 13 :: 10 :: c :: R) := by
    simp
  rw [es, increment_eq, increment_fn_accept N B R c v hne hN hB hws]
  refine ⟨_, rfl, rfl, rfl, ?_, ?_, ?_⟩
  · simp [string_view.bytes]
  · exact value_bytes_of_accept N B _ hB
  · intro hno
    rw [value_bytes_of_accept N B _ hB]
    exact trim_leading_no_vchar B hB hno

theorem increment_accepts_field_witness :
    ∃ r, header_fields.increment
        (bytes "x" ++ [58] ++ bytes " \r\n \t\r\n x" ++ [13, 10] ++ [13] ++ [10])
        value_type.init = some r ∧
      r.ec = none ∧
      r.it = (bytes "x").length + 1 + (bytes " \r\n \t\r\n x").length + 2 ∧
      r.v.name.bytes
        (bytes "x" ++ [58] ++ bytes " \r\n \t\r\n x" ++ [13, 10] ++ [13] ++ [10])
        = bytes "x" ∧
      r.v.value.bytes
        (bytes "x" ++ [58] ++ bytes " \r\n \t\r\n x" ++ [13, 10] ++ [13] ++ [10])
        = trim_leading (bytes " \r\n \t\r\n x") ∧
      ((∀ b ∈ bytes " \r\n \t\r\n x", field_vchar_set.contains b = false) →
        r.v.value.bytes
          (bytes "x" ++ [58] ++ bytes " \r\n \t\r\n x" ++ [13, 10] ++ [13] ++ [10])
          = []) :=
  increment_accepts_field (bytes "x") (bytes " \r\n \t\r\n x") [10] 13 value_type.init
    (by decide) (by decide)
    (value_bytes.ws 32 _ (by decide)
      (value_bytes.fold 32 _ (by decide)
        (value_bytes.ws 9 _ (by decide)
          (value_bytes.fold 32 _ (by decide)
            (value_bytes.vchar 120 _ (by decide) value_bytes.nil)))))
    (by decide)

/-- The good fields of the test, each followed by CR LF CR LF: the empty value of "x:",
the value "y" of "x: y", the value "gzip , chunked", and the value "1" of "a: 1". -/
theorem good_fields_examples :
    header_fields.increment (bytes "x:\r\n\r\n") value_type.init
      = some ⟨4, none, ⟨⟨0, 1⟩, ⟨2, 0⟩, false⟩⟩ ∧
    header_fields.increment (bytes "x: y\r\n\r\n") value_type.init
      = some ⟨6, none, ⟨⟨0, 1⟩, ⟨3, 1⟩, false⟩⟩ ∧
    header_fields.increment (bytes "x: gzip , chunked\r\n\r\n") value_type.init
      = some ⟨19, none, ⟨⟨0, 1⟩, ⟨3, 14⟩, false⟩⟩ ∧
    string_view.bytes ⟨3, 14⟩ (bytes "x: gzip , chunked\r\n\r\n") = bytes "gzip , chunked" ∧
    header_fields.increment (bytes "a: 1\r\nb: 2\r\n") value_type.init
      = some ⟨6, none, ⟨⟨0, 1⟩, ⟨3, 1⟩, false⟩⟩ ∧
    string_view.bytes ⟨3, 1⟩ (bytes "a: 1\r\nb: 2\r\n") = bytes "1" := by
  decide

/-! ## Failures consume nothing -/

theorem scan_err (k1 : Nat) (l : List Nat) :
    ∀ (it : Nat) (v0 : Option Nat) (v : value_type),
      (scan k1 l it v0 v).ec ≠ none →
      (scan k1 l it v0 v).it = 0 ∧ (scan k1 l it v0 v).v.name = v.name ∧
        (scan k1 l it v0 v).v.value = v.value := by
  induction l using scan_induction with
  | nil => intro it v0 v _; simp [scan_nil, fail_with]
  | fv a rest ha ih => intro it v0 v h; rw [scan_fv _ _ _ _ _ _ ha] at h ⊢; exact ih _ _ _ h
  | ws a rest ha ih => intro it v0 v h; rw [scan_ws _ _ _ _ _ _ ha] at h ⊢; exact ih _ _ _ h
  | cr_short rest hr => intro it v0 v _; simp [scan_cr_short _ _ _ _ _ hr, fail_with]
  | cr_bad d e rest hd => intro it v0 v _; simp [scan_cr_bad _ _ _ _ _ _ _ hd, fail_with]
  | cr_end e rest he => intro it v0 v h; simp [scan_cr_end _ _ _ _ _ _ he] at h
  | cr_fold e rest he ih =>
    intro it v0 v h
    rw [scan_cr_fold _ _ _ _ _ _ he] at h ⊢
    exact ih _ _ _ h
  | other a rest hfv hws hcr =>
    intro it v0 v _; simp [scan_other _ _ _ _ _ _ hfv hws hcr, fail_with]

/-- Every outcome but a parsed field and error::end returns `start` and leaves the stored
name and value alone. -/
theorem increment_fn_err (s : List Nat) (v : value_type)
    (h1 : (increment_fn s v).ec ≠ none) (h2 : (increment_fn s v).ec ≠ some error.end_) :
    (increment_fn s v).it = 0 ∧ (increment_fn s v).v.name = v.name ∧
      (increment_fn s v).v.value = v.value := by
  rcases header_split s with rfl | ⟨R, rfl⟩ | ⟨hne, hcr, hall⟩ | ⟨N, x, X, rfl, hN, hx, hcr⟩
  · simp [increment_fn_nil, fail_with]
  · rcases R with _ | ⟨d, R⟩
    · simp [increment_fn_cr_nil, fail_with]
    · by_cases hd : d = 10
      · subst hd
        simp [increment_fn_cr_lf] at h2
      · simp [increment_fn_cr_other d R v hd, fail_with]
  · simp [increment_fn_all_tchar s v hne hcr hall, fail_with]
  · rw [increment_fn_split N x X v hN hx hcr] at h1 ⊢
    by_cases h58 : x = 58
    · by_cases h0 : N.length = 0
      · simp [h58, h0, fail_with]
      · simp only [h58, ne_eq, not_true_eq_false, if_false, h0] at h1 ⊢
        exact scan_err _ _ _ _ _ h1
    · simp [h58, fail_with]

/-- A call that parsed a field, its input and its result. -/
theorem increment_fn_ok_form (s : List Nat) (v : value_type)
    (h : (increment_fn s v).ec = none) :
    ∃ N B c R, s = N ++ 58 :: (B ++ 13 :: 10 :: c :: R) ∧ N ≠ [] ∧
      (∀ a ∈ N, tchar_set.contains a = true) ∧ value_bytes B ∧
      ws_set.contains c = false ∧
      increment_fn s v =
        ⟨N.length + 1 + B.length + 2, none,
          { name := ⟨0, N.length⟩,
            value := ⟨N.length + 1 + (B.length - (trim_leading B).length),
              (trim_leading B).length⟩,
            has_obs_fold := v.has_obs_fold || contains_obs_fold B }⟩ := by
  obtain ⟨N, B, c, R, rfl, hne, hN, hB, hc⟩ := increment_fn_decompose s v h
  exact ⟨N, B, c, R, rfl, hne, hN, hB, hc, increment_fn_accept N B R c v hne hN hB hc⟩

/-! ## Prefixes of a field -/

/-- C2: when `header_fields::increment` parses a field of `s` consuming `k` bytes, it returns
need_more and consumes nothing on every prefix of `s` of length at most `k`, and returns the
same field on every prefix of length greater than `k`; and on an input that begins with
CR LF, the prefixes of length 0 and 1 give need_more. -/
theorem increment_prefixes :
    (∀ (s : List Nat) (v : value_type) (r : increment_result),
      header_fields.increment s v = some r → r.ec = none →
      (∀ n, n ≤ r.it → ∃ r', header_fields.increment (s.take n) v = some r' ∧
        r'.ec = some error.need_more ∧ r'.it = 0) ∧
      (∀ n, r.it < n → header_fields.increment (s.take n) v = some r)) ∧
    (∀ (R : List Nat) (v : value_type),
      header_fields.increment ((13 :: 10 :: R).take 0) v
        = some ⟨0, some error.need_more, v⟩ ∧
      header_fields.increment ((13 :: 10 :: R).take 1) v
        = some ⟨0, some error.need_more, v⟩) := by
  refine ⟨?_, fun R v => ⟨rfl, rfl⟩⟩
  intro s v r h hok
  rw [increment_eq] at h
  have hr : increment_fn s v = r := Option.some.inj h
  subst hr
  obtain ⟨N, B, c, R, hs, hne, hN, hB, hc, hform⟩ := increment_fn_ok_form s v hok
  constructor
  · intro n hn
    rw [increment_eq]
    refine ⟨_, rfl, ?_⟩
    by_cases hnm : (increment_fn (s.take n) v).ec = some error.need_more
    · refine ⟨hnm, (increment_fn_err _ v ?_ ?_).1⟩
      · rw [hnm]; simp
      · rw [hnm]; simp
    · exfalso
      have happ := increment_fn_append (s.take n) (s.drop n) v hnm
      rw [List.take_append_drop] at happ
      have hok2 : (increment_fn (s.take n) v).ec = none := by rw [← happ]; exact hok
      obtain ⟨N2, B2, c2, R2, hs2, _, _, _, _, hform2⟩ := increment_fn_ok_form _ v hok2
      have hlen : (s.take n).length ≤ n := by
        rw [List.length_take]
        omega
      have hit : (increment_fn s v).it = (increment_fn (s.take n) v).it := by rw [happ]
      rw [hform2] at hit
      rw [hs2] at hlen
      simp only [List.length_append, List.length_cons] at hlen
      simp only at hit
      omega
  · intro n hn
    rw [increment_eq]
    congr 1
    rw [hform] at hn ⊢
    simp only at hn
    have e1 : s = (N ++ 58 :: (B ++ [13, 10, c])) ++ R := by
      rw [hs]; simp
    have hlen : (N ++ 58 :: (B ++ [13, 10, c])).length ≤ n := by
      simp only [List.length_append, List.length_cons, List.length_nil]
      omega
    have e2 : s.take n = N ++ 58 :: (B ++ 13 :: 10 :: c :: R.take
        (n - (N ++ 58 :: (B ++ [13, 10, c])).length)) := by
      rw [e1, List.take_append_eq_append_take, List.take_of_length_le hlen]
      simp
    rw [e2]
    exact increment_fn_accept N B _ c v hne hN hB hc

theorem increment_prefixes_witness :
    (∀ n, n ≤ 19 → ∃ r',
      header_fields.increment
        ((bytes "Connection: close\r\nContent-Length: 42\r\n\r\n").take n)
        value_type.init = some r' ∧ r'.ec = some error.need_more ∧ r'.it = 0) ∧
    (∀ n, 19 < n →
      header_fields.increment
        ((bytes "Connection: close\r\nContent-Length: 42\r\n\r\n").take n)
        value_type.init = some ⟨19, none, ⟨⟨0, 10⟩, ⟨12, 5⟩, false⟩⟩) :=
  increment_prefixes.1 (bytes "Connection: close\r\nContent-Length: 42\r\n\r\n")
    value_type.init ⟨19, none, ⟨⟨0, 10⟩, ⟨12, 5⟩, false⟩⟩ (by decide) (by decide)

/-! ## Soundness of the reported ranges -/

/-- A view that lies inside the buffer denotes exactly the buffer's bytes at its
positions. -/
theorem string_view_bytes_inside (sv : string_view) (s : List Nat)
    (h : sv.ptr + sv.len ≤ s.length) :
    (sv.bytes s).length = sv.len ∧ ∀ i, i < sv.len → (sv.bytes s)[i]? = s[sv.ptr + i]? := by
  unfold string_view.bytes
  constructor
  · rw [List.length_take, List.length_drop]
    omega
  · intro i hi
    rw [List.getElem?_take_of_lt hi, List.getElem?_drop]

/-- C4: when `header_fields::increment` parses a field consuming `k` bytes, the name range
starts at offset 0, is not empty, ends at the first colon and holds tchar bytes only; the
value range starts after the colon and ends at or before offset `k - 2`; bytes `k - 2` and
`k - 1` of the input are CR LF; byte `k` exists and is neither SP nor HTAB; and both ranges
lie inside the input and denote its bytes at their positions. -/
theorem increment_ranges_sound (s : List Nat) (v : value_type) (r : increment_result)
    (h : header_fields.increment s v = some r) (hok : r.ec = none) :
    r.v.name.ptr = 0 ∧ 0 < r.v.name.len ∧
    s[r.v.name.len]? = some 58 ∧
    (∀ i, i < r.v.name.len →
      ∃ a, s[i]? = some a ∧ tchar_set.contains a = true ∧ a ≠ 58) ∧
    r.v.name.ptr + r.v.name.len < r.v.value.ptr ∧
    r.v.value.ptr + r.v.value.len ≤ r.it - 2 ∧
    2 ≤ r.it ∧
    s[r.it - 2]? = some 13 ∧ s[r.it - 1]? = some 10 ∧
    (∃ c, s[r.it]? = some c ∧ c ≠ 32 ∧ c ≠ 9) ∧
    ((r.v.name.bytes s).length = r.v.name.len ∧
      ∀ i, i < r.v.name.len → (r.v.name.bytes s)[i]? = s[r.v.name.ptr + i]?) ∧
    ((r.v.value.bytes s).length = r.v.value.len ∧
      ∀ i, i < r.v.value.len → (r.v.value.bytes s)[i]? = s[r.v.value.ptr + i]?) := by
  rw [increment_eq] at h
  have hr : increment_fn s v = r := Option.some.inj h
  subst hr
  obtain ⟨N, B, c, R, hs, hne, hN, hB, hc, hform⟩ := increment_fn_ok_form s v hok
  rw [hform]
  simp only
  have hle := trim_leading_length_le B hB
  have hNpos : 0 < N.length := List.length_pos.2 hne
  have hslen : s.length = N.length + 1 + B.length + 3 + R.length := by
    rw [hs]
    simp only [List.length_append, List.length_cons]
    omega
  have e1 : s = (N ++ 58 :: B) ++ 13 :: 10 :: c :: R := by rw [hs]; simp
  have hPlen : (N ++ 58 :: B).length = N.length + 1 + B.length := by
    simp only [List.length_append, List.length_cons]
    omega
  have g0 := getElem?_append_length (N ++ 58 :: B) (13 :: 10 :: c :: R) 0
  have g1 := getElem?_append_length (N ++ 58 :: B) (13 :: 10 :: c :: R) 1
  have g2 := getElem?_append_length (N ++ 58 :: B) (13 :: 10 :: c :: R) 2
  rw [← e1, hPlen] at g0 g1 g2
  have gc := getElem?_append_length N (58 :: (B ++ 13 :: 10 :: c :: R)) 0
  rw [← hs] at gc
  refine ⟨trivial, hNpos, ?_, ?_, by omega, by omega, by omega, ?_, ?_, ?_, ?_, ?_⟩
  · simpa using gc
  · intro i hi
    refine ⟨N[i], ?_, hN _ (List.getElem_mem hi), (tchar_bounds _ (hN _ (List.getElem_mem hi))).2⟩
    rw [hs, List.getElem?_append_left hi, List.getElem?_eq_getElem hi]
  · have : N.length + 1 + B.length + 2 - 2 = N.length + 1 + B.length + 0 := by omega
    rw [this, g0]
    simp
  · have : N.length + 1 + B.length + 2 - 1 = N.length + 1 + B.length + 1 := by omega
    rw [this, g1]
    simp
  · refine ⟨c, ?_, ?_, ?_⟩
    · rw [g2]
      simp
    · rintro rfl
      exact absurd hc (by decide)
    · rintro rfl
      exact absurd hc (by decide)
  · exact string_view_bytes_inside _ s (by simp only; omega)
  · exact string_view_bytes_inside _ s (by simp only; omega)

theorem increment_ranges_sound_witness :
    (0 : Nat) = 0 ∧ 0 < 1 ∧
    (bytes "x: y \r\n\r\n")[1]? = some 58 ∧
    (∀ i, i < 1 →
      ∃ a, (bytes "x: y \r\n\r\n")[i]? = some a ∧ tchar_set.contains a = true ∧ a ≠ 58) ∧
    0 + 1 < 3 ∧
    3 + 2 ≤ 7 - 2 ∧
    2 ≤ 7 ∧
    (bytes "x: y \r\n\r\n")[7 - 2]? = some 13 ∧
    (bytes "x: y \r\n\r\n")[7 - 1]? = some 10 ∧
    (∃ c, (bytes "x: y \r\n\r\n")[7]? = some c ∧ c ≠ 32 ∧ c ≠ 9) ∧
    ((string_view.bytes ⟨0, 1⟩ (bytes "x: y \r\n\r\n")).length = 1 ∧
      ∀ i, i < 1 → (string_view.bytes ⟨0, 1⟩ (bytes "x: y \r\n\r\n"))[i]?
        = (bytes "x: y \r\n\r\n")[0 + i]?) ∧
    ((string_view.bytes ⟨3, 2⟩ (bytes "x: y \r\n\r\n")).length = 2 ∧
      ∀ i, i < 2 → (string_view.bytes ⟨3, 2⟩ (bytes "x: y \r\n\r\n"))[i]?
        = (bytes "x: y \r\n\r\n")[3 + i]?) :=
  increment_ranges_sound (bytes "x: y \r\n\r\n") value_type.init
    ⟨7, none, ⟨⟨0, 1⟩, ⟨3, 2⟩, false⟩⟩ (by decide) (by decide)

/-! ## Obs-fold -/

/-- C7, as the code has it: `header_fields::increment` accepts the field "x: \r\n y"
followed by CR LF CR LF and marks has_obs_fold; the value it reports is "y" (offset 6,
length 1), since the whitespace and the obs-fold before the first field-vchar byte are not
part of the value; `replace_obs_fold` leaves "y" as it is. -/
theorem obs_fold_scenario :
    header_fields.increment (bytes "x: \r\n y\r\n\r\n") value_type.init
      = some ⟨9, none, ⟨⟨0, 1⟩, ⟨6, 1⟩, true⟩⟩ ∧
    string_view.bytes ⟨6, 1⟩ (bytes "x: \r\n y\r\n\r\n") = bytes "y" ∧
    replace_obs_fold (bytes "y") = some (bytes "y", true) := by
  decide

/-- C7 as stated fails: on the field "x: \r\n y" followed by CR LF CR LF the value that
`header_fields::increment` reports does not become "  y" under `replace_obs_fold`. -/
theorem obs_fold_scenario_counterexample :
    ¬ ∃ r out,
      header_fields.increment (bytes "x: \r\n y\r\n\r\n") value_type.init = some r ∧
      r.ec = none ∧ r.v.has_obs_fold = true ∧
      replace_obs_fold (r.v.value.bytes (bytes "x: \r\n y\r\n\r\n")) = some out ∧
      out.1 = bytes "  y" := by
  rintro ⟨r, out, h1, _, _, h2, h3⟩
  have e : header_fields.increment (bytes "x: \r\n y\r\n\r\n") value_type.init
      = some ⟨9, none, ⟨⟨0, 1⟩, ⟨6, 1⟩, true⟩⟩ := by decide
  rw [e] at h1
  have hr := Option.some.inj h1
  subst hr
  have e2 : replace_obs_fold
      (string_view.bytes ⟨6, 1⟩ (bytes "x: \r\n y\r\n\r\n")) = some ([121], true) := by
    decide
  simp only at h2
  rw [e2] at h2
  have ho := Option.some.inj h2
  subst ho
  revert h3
  decide

theorem contains_obs_fold_trim (B : List Nat) (hB : value_bytes B)
    (h : contains_obs_fold (trim_leading B) = true) : contains_obs_fold B = true := by
  induction hB with
  | nil => exact h
  | vchar c B hc _ _ => rw [trim_leading_fv c B hc] at h; exact h
  | ws c B hc _ ih =>
    rw [trim_leading_ws c B hc] at h
    rw [contains_obs_fold, ih h]
    simp
  | fold c B hc _ _ => exact contains_obs_fold_triple c B hc

/-- C8, as the code has it: when `header_fields::increment` parses a field starting from
has_obs_fold = false, has_obs_fold is true afterwards if and only if the bytes between the
colon and the closing CR LF contain a CR LF (SP|HTAB) sequence; in particular it is true
whenever the reported value range contains one. -/
theorem has_obs_fold_meaning (s : List Nat) (v : value_type) (r : increment_result)
    (hv : v.has_obs_fold = false) (h : header_fields.increment s v = some r)
    (hok : r.ec = none) :
    (r.v.has_obs_fold = true ↔
      contains_obs_fold
        ((s.drop (r.v.name.len + 1)).take (r.it - 2 - (r.v.name.len + 1))) = true) ∧
    (contains_obs_fold (r.v.value.bytes s) = true → r.v.has_obs_fold = true) := by
  rw [increment_eq] at h
  have hr : increment_fn s v = r := Option.some.inj h
  subst hr
  obtain ⟨N, B, c, R, hs, hne, hN, hB, hc, hform⟩ := increment_fn_ok_form s v hok
  rw [hform]
  simp only [hv, Bool.false_or]
  have e1 : (s.drop (N.length + 1)).take (N.length + 1 + B.length + 2 - 2 - (N.length + 1))
      = B := by
    have e2 : s = (N ++ [58]) ++ (B ++ 13 :: 10 :: c :: R) := by rw [hs]; simp
    have e3 : N.length + 1 = (N ++ [58]).length := by simp
    have e4 : N.length + 1 + B.length + 2 - 2 - (N.length + 1) = B.length := by omega
    rw [e4, e2, e3, List.drop_left, List.take_left]
  rw [e1]
  refine ⟨Iff.rfl, ?_⟩
  intro hval
  rw [hs, value_bytes_of_accept N B _ hB] at hval
  exact contains_obs_fold_trim B hB hval

theorem has_obs_fold_meaning_witness :
    (true = true ↔
      contains_obs_fold
        (((bytes "x: y\r\n z\r\n\r\n").drop (1 + 1)).take (10 - 2 - (1 + 1))) = true) ∧
    (contains_obs_fold (string_view.bytes ⟨3, 5⟩ (bytes "x: y\r\n z\r\n\r\n")) = true →
      true = true) :=
  has_obs_fold_meaning (bytes "x: y\r\n z\r\n\r\n") value_type.init
    ⟨10, none, ⟨⟨0, 1⟩, ⟨3, 5⟩, true⟩⟩ (by decide) (by decide) (by decide)

/-- C8 as stated fails: on the field "x: \r\n y" followed by CR LF CR LF, starting from
has_obs_fold = false, has_obs_fold is true afterwards although the reported value range,
"y", contains no CR LF (SP|HTAB) sequence. -/
theorem has_obs_fold_counterexample :
    value_type.init.has_obs_fold = false ∧
    header_fields.increment (bytes "x: \r\n y\r\n\r\n") value_type.init
      = some ⟨9, none, ⟨⟨0, 1⟩, ⟨6, 1⟩, true⟩⟩ ∧
    contains_obs_fold (string_view.bytes ⟨6, 1⟩ (bytes "x: \r\n y\r\n\r\n")) = false := by
  decide

/-! ## replace_obs_fold: the loop computes the byte-at-a-time reading -/

theorem replace_obs_fold_fn_cons (c : Nat) (rest : List Nat) :
    replace_obs_fold_fn (c :: rest) =
      if c ≠ 13 then
        c :: replace_obs_fold_fn rest
      else
        match rest with
        | d :: e :: rest' =>
          if d = 10 ∧ ws_set.contains e = true then
            32 :: 32 :: e :: replace_obs_fold_fn rest'
          else
            c :: replace_obs_fold_fn (d :: e :: rest')
        | _ => c :: rest := by
  rcases rest with _ | ⟨d, _ | ⟨e, rest'⟩⟩ <;> rfl

theorem replace_obs_fold_asserts_cons (c : Nat) (rest : List Nat) :
    replace_obs_fold_asserts (c :: rest) =
      if c ≠ 13 then
        replace_obs_fold_asserts rest
      else
        match rest with
        | d :: e :: rest' =>
          (d == 10) &&
            (if d = 10 ∧ ws_set.contains e = true then
              replace_obs_fold_asserts rest'
            else
              replace_obs_fold_asserts (d :: e :: rest'))
        | _ => true := by
  rcases rest with _ | ⟨d, _ | ⟨e, rest'⟩⟩ <;> rfl

theorem getD_append_length (done todo : List Nat) (j : Nat) :
    (done ++ todo).getD (done.length + j) 0 = todo.getD j 0 := by
  rw [List.getD_eq_getElem?_getD, List.getD_eq_getElem?_getD, getElem?_append_length]

theorem set_set_append (done rest : List Nat) (x y a b : Nat) :
    ((done ++ x :: y :: rest).set done.length a).set (done.length + 1) b
      = done ++ a :: b :: rest := by
  induction done with
  | nil => rfl
  | cons h done ih =>
    simp only [List.cons_append, List.length_cons, List.set_cons_succ, ih]

theorem replace_obs_fold_loop_eq :
    ∀ (fuel : Nat) (done todo : List Nat) (ok : Bool), todo.length < fuel →
      replace_obs_fold_loop fuel (done ++ todo) done.length ok
        = some (done ++ replace_obs_fold_fn todo, ok && replace_obs_fold_asserts todo) := by
  intro fuel
  induction fuel with
  | zero => intro done todo ok h; omega
  | succ fuel ih =>
    intro done todo ok hfuel
    rw [replace_obs_fold_loop]
    rcases todo with _ | ⟨c, rest⟩
    · simp [replace_obs_fold_fn, replace_obs_fold_asserts]
    · have hne : ¬ done.length = (done ++ c :: rest).length := by
        simp only [List.length_append, List.length_cons]
        omega
      have hc : (done ++ c :: rest).getD done.length 0 = c := by
        have := getD_append_length done (c :: rest) 0
        simpa using this
      simp only [List.length_cons] at hfuel
      rw [if_neg hne, hc, replace_obs_fold_fn_cons, replace_obs_fold_asserts_cons]
      have hstep : ∀ (t : List Nat) (b : Bool), t.length < fuel →
          replace_obs_fold_loop fuel (done ++ c :: t) (done.length + 1) b
            = some (done ++ c :: replace_obs_fold_fn t, b && replace_obs_fold_asserts t) := by
        intro t b ht
        have := ih (done ++ [c]) t b ht
        simpa using this
      by_cases hcr : c = 13
      · subst hcr
        simp only [ne_eq, not_true_eq_false, if_false]
        rcases rest with _ | ⟨d, _ | ⟨e, rest'⟩⟩
        · simp
        · simp
        · have h3 : ¬ ((done ++ 13 :: d :: e :: rest').length - done.length < 3) := by
            simp only [List.length_append, List.length_cons]
            omega
          have hd : (done ++ 13 :: d :: e :: rest').getD (done.length + 1) 0 = d := by
            rw [getD_append_length]
            rfl
          have he : (done ++ 13 :: d :: e :: rest').getD (done.length + 2) 0 = e := by
            rw [getD_append_length]
            rfl
          simp only [List.length_cons] at hfuel
          rw [if_neg h3]
          simp only [hd, he]
          by_cases hf : d = 10 ∧ ws_set.contains e = true
          · rw [if_pos hf, if_pos hf, if_pos hf, set_set_append]
            have := ih (done ++ [32, 32, e]) rest' (ok && (d == 10)) (by omega)
            simp only [List.length_append, List.length_cons, List.length_nil,
              List.append_assoc, List.cons_append, List.nil_append] at this
            rw [this, Bool.and_assoc]
          · rw [if_neg hf, if_neg hf, if_neg hf,
              hstep _ _ (by simp only [List.length_cons]; omega),
              Bool.and_assoc]
      · simp only [ne_eq, hcr, not_false_eq_true, if_true]
        exact hstep rest ok (by omega)

theorem replace_obs_fold_eq (b : List Nat) :
    replace_obs_fold b = some (replace_obs_fold_fn b, replace_obs_fold_asserts b) := by
  have := replace_obs_fold_loop_eq (b.length + 1) [] b true (by omega)
  simpa [replace_obs_fold] using this

/-! ## replace_obs_fold rewrites exactly the folds -/

theorem replace_obs_fold_fn_other (c : Nat) (rest : List Nat) (h : c ≠ 13) :
    replace_obs_fold_fn (c :: rest) = c :: replace_obs_fold_fn rest := by
  rw [replace_obs_fold_fn_cons, if_pos h]

theorem replace_obs_fold_fn_cr_short (rest : List Nat) (h : rest.length < 2) :
    replace_obs_fold_fn (13 :: rest) = 13 :: rest := by
  rcases rest with _ | ⟨d, _ | ⟨e, rest'⟩⟩
  · rfl
  · rfl
  · simp only [List.length_cons] at h
    omega

theorem replace_obs_fold_fn_cr_fold (e : Nat) (rest : List Nat)
    (h : ws_set.contains e = true) :
    replace_obs_fold_fn (13 :: 10 :: e :: rest) = 32 :: 32 :: e :: replace_obs_fold_fn rest := by
  rw [replace_obs_fold_fn_cons, if_neg (by simp)]
  simp [h]

theorem replace_obs_fold_fn_cr_plain (d e : Nat) (rest : List Nat)
    (h : ¬ (d = 10 ∧ ws_set.contains e = true)) :
    replace_obs_fold_fn (13 :: d :: e :: rest)
      = 13 :: replace_obs_fold_fn (d :: e :: rest) := by
  rw [replace_obs_fold_fn_cons, if_neg (by simp)]
  simp only
  rw [if_neg h]

/-- Induction along the cases of `replace_obs_fold_fn`. -/
theorem fold_induction {motive : List Nat → Prop}
    (nil : motive [])
    (other : ∀ c rest, c ≠ 13 → motive rest → motive (c :: rest))
    (cr_short : ∀ rest, rest.length < 2 → motive (13 :: rest))
    (cr_fold : ∀ e rest, ws_set.contains e = true → motive rest →
      motive (13 :: 10 :: e :: rest))
    (cr_plain : ∀ d e rest, ¬ (d = 10 ∧ ws_set.contains e = true) →
      motive (d :: e :: rest) → motive (13 :: d :: e :: rest))
    (l : List Nat) : motive l := by
  have key : ∀ n, ∀ l : List Nat, l.length = n → motive l := by
    intro n
    induction n using Nat.strong_induction_on with
    | _ n ih =>
      intro l hl
      rcases l with _ | ⟨c, rest⟩
      · exact nil
      · simp only [List.length_cons] at hl
        by_cases hcr : c = 13
        · subst hcr
          rcases rest with _ | ⟨d, _ | ⟨e, rest'⟩⟩
          · exact cr_short _ (by simp)
          · exact cr_short _ (by simp)
          · simp only [List.length_cons] at hl
            by_cases hf : d = 10 ∧ ws_set.contains e = true
            · obtain ⟨rfl, he⟩ := hf
              exact cr_fold e rest' he (ih rest'.length (by omega) rest' rfl)
            · exact cr_plain d e rest' hf
                (ih (d :: e :: rest').length (by simp only [List.length_cons]; omega) _ rfl)
        · exact other c rest hcr (ih rest.length (by omega) rest rfl)
  exact key l.length l rfl

theorem starts_with_fold_other (c : Nat) (rest : List Nat) (h : c ≠ 13) :
    starts_with_fold (c :: rest) = false := by
  simp [starts_with_fold, h]

theorem starts_with_fold_cr_short (rest : List Nat) (h : rest.length < 2) :
    starts_with_fold (13 :: rest) = false := by
  rcases rest with _ | ⟨d, _ | ⟨e, rest'⟩⟩
  · rfl
  · simp [starts_with_fold, ws_set.contains]
  · simp only [List.length_cons] at h
    omega

theorem starts_with_fold_triple (d e : Nat) (rest : List Nat) :
    starts_with_fold (13 :: d :: e :: rest) = (d == 10 && ws_set.contains e) := by
  simp [starts_with_fold]

theorem rewritten_at_zero (l : List Nat) : rewritten_at l 0 = starts_with_fold l := by
  simp [rewritten_at, fold_at]

theorem rewritten_at_cons_succ_succ (c : Nat) (rest : List Nat) (j : Nat) :
    rewritten_at (c :: rest) (j + 2) = rewritten_at rest (j + 1) := by
  simp [rewritten_at, fold_at]

theorem rewritten_at_cons_one (c : Nat) (rest : List Nat) :
    rewritten_at (c :: rest) 1 = (starts_with_fold rest || starts_with_fold (c :: rest)) := by
  simp [rewritten_at, fold_at]

theorem rewritten_at_cons_succ (c : Nat) (rest : List Nat) (j : Nat)
    (h : starts_with_fold (c :: rest) = false) :
    rewritten_at (c :: rest) (j + 1) = rewritten_at rest j := by
  rcases j with _ | j
  · rw [rewritten_at_cons_one, h, rewritten_at_zero]
    simp
  · exact rewritten_at_cons_succ_succ c rest j

theorem replace_obs_fold_fn_spec (l : List Nat) :
    (replace_obs_fold_fn l).length = l.length ∧
    ∀ i, i < l.length →
      (replace_obs_fold_fn l)[i]? = if rewritten_at l i = true then some 32 else l[i]? := by
  induction l using fold_induction with
  | nil => simp [replace_obs_fold_fn]
  | other c rest hc ih =>
    rw [replace_obs_fold_fn_other c rest hc]
    refine ⟨by simp [ih.1], ?_⟩
    intro i hi
    rcases i with _ | j
    · rw [rewritten_at_zero, starts_with_fold_other c rest hc]
      simp
    · simp only [List.length_cons] at hi
      rw [rewritten_at_cons_succ c rest j (starts_with_fold_other c rest hc)]
      simpa using ih.2 j (by omega)
  | cr_short rest hr =>
    rw [replace_obs_fold_fn_cr_short rest hr]
    refine ⟨rfl, ?_⟩
    intro i hi
    have hnot : rewritten_at (13 :: rest) i = false := by
      rcases rest with _ | ⟨d, _ | ⟨e, rest'⟩⟩
      · simp only [List.length_cons, List.length_nil] at hi
        have : i = 0 := by omega
        subst this
        rfl
      · simp only [List.length_cons, List.length_nil] at hi
        have : i = 0 ∨ i = 1 := by omega
        rcases this with rfl | rfl
        · rw [rewritten_at_zero, starts_with_fold_cr_short _ (by simp)]
        · rw [rewritten_at_cons_one, starts_with_fold_cr_short _ (by simp)]
          simp [starts_with_fold, ws_set.contains]
      · simp only [List.length_cons] at hr
        omega
    rw [hnot]
    simp
  | cr_fold e rest he ih =>
    rw [replace_obs_fold_fn_cr_fold e rest he]
    refine ⟨by simp [ih.1], ?_⟩
    intro i hi
    have hne : e ≠ 13 := ws_ne_cr e he
    rcases i with _ | _ | _ | j
    · rw [rewritten_at_zero, starts_with_fold_triple, he]
      simp
    · rw [rewritten_at_cons_one, starts_with_fold_triple, he]
      simp
    · rw [rewritten_at_cons_succ_succ, rewritten_at_cons_one,
        starts_with_fold_other e rest hne, starts_with_fold_other 10 _ (by decide)]
      simp
    · simp only [List.length_cons] at hi
      rw [rewritten_at_cons_succ_succ, rewritten_at_cons_succ_succ,
        rewritten_at_cons_succ e rest j (starts_with_fold_other e rest hne)]
      simpa using ih.2 j (by omega)
  | cr_plain d e rest hf ih =>
    rw [replace_obs_fold_fn_cr_plain d e rest hf]
    have hs : starts_with_fold (13 :: d :: e :: rest) = false := by
      rw [starts_with_fold_triple]
      cases hw : ws_set.contains e
      · simp
      · have : d ≠ 10 := fun h => hf ⟨h, hw⟩
        simp [this]
    refine ⟨by simp [ih.1], ?_⟩
    intro i hi
    rcases i with _ | j
    · rw [rewritten_at_zero, hs]
      simp
    · simp only [List.length_cons] at hi
      rw [rewritten_at_cons_succ _ _ j hs]
      have := ih.2 j (by simp only [List.length_cons]; omega)
      simpa using this

theorem replace_obs_fold_asserts_other (c : Nat) (rest : List Nat) (h : c ≠ 13) :
    replace_obs_fold_asserts (c :: rest) = replace_obs_fold_asserts rest := by
  rw [replace_obs_fold_asserts_cons, if_pos h]

theorem replace_obs_fold_asserts_cr_short (rest : List Nat) (h : rest.length < 2) :
    replace_obs_fold_asserts (13 :: rest) = true := by
  rcases rest with _ | ⟨d, _ | ⟨e, rest'⟩⟩
  · rfl
  · rfl
  · simp only [List.length_cons] at h
    omega

theorem replace_obs_fold_asserts_cr_fold (e : Nat) (rest : List Nat)
    (h : ws_set.contains e = true) :
    replace_obs_fold_asserts (13 :: 10 :: e :: rest) = replace_obs_fold_asserts rest := by
  rw [replace_obs_fold_asserts_cons, if_neg (by simp)]
  simp [h]

theorem replace_obs_fold_asserts_cr_plain (d e : Nat) (rest : List Nat)
    (h : ¬ (d = 10 ∧ ws_set.contains e = true)) :
    replace_obs_fold_asserts (13 :: d :: e :: rest)
      = (d == 10 && replace_obs_fold_asserts (d :: e :: rest)) := by
  rw [replace_obs_fold_asserts_cons, if_neg (by simp)]
  simp only
  rw [if_neg h]

/-- When every CR with at least two bytes after it is followed by LF, no assertion of
`replace_obs_fold` fails. -/
theorem replace_obs_fold_asserts_of_crlf (l : List Nat) :
    (∀ i, l[i]? = some 13 → i + 2 < l.length → l[i + 1]? = some 10) →
    replace_obs_fold_asserts l = true := by
  induction l using fold_induction with
  | nil => intro _; rfl
  | other c rest hc ih =>
    intro h
    rw [replace_obs_fold_asserts_other c rest hc]
    apply ih
    intro i h1 h2
    have := h (i + 1) (by simpa using h1) (by simp only [List.length_cons]; omega)
    simpa using this
  | cr_short rest hr => intro _; exact replace_obs_fold_asserts_cr_short rest hr
  | cr_fold e rest he ih =>
    intro h
    rw [replace_obs_fold_asserts_cr_fold e rest he]
    apply ih
    intro i h1 h2
    have := h (i + 3) (by simpa using h1) (by simp only [List.length_cons]; omega)
    simpa using this
  | cr_plain d e rest hf ih =>
    intro h
    rw [replace_obs_fold_asserts_cr_plain d e rest hf]
    have hd : d = 10 := by
      have := h 0 (by simp) (by simp only [List.length_cons]; omega)
      simpa using this
    have hrest : replace_obs_fold_asserts (d :: e :: rest) = true := by
      apply ih
      intro i h1 h2
      have := h (i + 1) (by simpa using h1) (by simp only [List.length_cons] at h2 ⊢; omega)
      simpa using this
    rw [hrest, hd]
    rfl

/-- C9: on a buffer in which every CR that has at least two bytes after it is followed by
LF, `replace_obs_fold` returns (no assertion fails) with a buffer of the same length that is
the input with the CR and the LF of each CR LF (SP|HTAB) sequence replaced by SP: the third
byte of the triple and every byte outside such a triple are unchanged. -/
theorem replace_obs_fold_rewrites_folds (b : List Nat)
    (hb : ∀ i, b[i]? = some 13 → i + 2 < b.length → b[i + 1]? = some 10) :
    ∃ out, replace_obs_fold b = some (out, true) ∧ out.length = b.length ∧
      ∀ i, i < b.length → out[i]? = if rewritten_at b i = true then some 32 else b[i]? := by
  refine ⟨replace_obs_fold_fn b, ?_, (replace_obs_fold_fn_spec b).1,
    (replace_obs_fold_fn_spec b).2⟩
  rw [replace_obs_fold_eq, replace_obs_fold_asserts_of_crlf b hb]

theorem replace_obs_fold_rewrites_folds_witness :
    ∃ out, replace_obs_fold (bytes "y\r\n z \r\n\tw\r\n") = some (out, true) ∧
      out.length = (bytes "y\r\n z \r\n\tw\r\n").length ∧
      ∀ i, i < (bytes "y\r\n z \r\n\tw\r\n").length →
        out[i]? = if rewritten_at (bytes "y\r\n z \r\n\tw\r\n") i = true then some 32
          else (bytes "y\r\n z \r\n\tw\r\n")[i]? :=
  replace_obs_fold_rewrites_folds (bytes "y\r\n z \r\n\tw\r\n") (by
    have h : ∀ i, i < 12 → (bytes "y\r\n z \r\n\tw\r\n")[i]? = some 13 →
        i + 2 < (bytes "y\r\n z \r\n\tw\r\n").length →
        (bytes "y\r\n z \r\n\tw\r\n")[i + 1]? = some 10 := by decide
    intro i h1 h2
    exact h i (by have : (bytes "y\r\n z \r\n\tw\r\n").length = 12 := by decide
                  omega) h1 h2)

/-! ## Bare LF -/

theorem crlf_paired_append (l1 l2 : List Nat) (h1 : crlf_paired l1) (h2 : crlf_paired l2) :
    crlf_paired (l1 ++ l2) := by
  intro i
  by_cases hi : i < l1.length
  · rw [List.getElem?_append_left hi]
    constructor
    · intro h
      obtain ⟨hpos, hprev⟩ := (h1 i).1 h
      exact ⟨hpos, by rw [List.getElem?_append_left (by omega)]; exact hprev⟩
    · intro h
      have hnext := (h1 i).2 h
      have hlt : i + 1 < l1.length := by
        by_contra hc
        rw [List.getElem?_eq_none (by omega)] at hnext
        exact absurd hnext (by simp)
      rw [List.getElem?_append_left hlt]
      exact hnext
  · have hle : l1.length ≤ i := by omega
    rw [List.getElem?_append_right hle]
    constructor
    · intro h
      obtain ⟨hpos, hprev⟩ := (h2 (i - l1.length)).1 h
      refine ⟨by omega, ?_⟩
      rw [List.getElem?_append_right (by omega)]
      have : i - 1 - l1.length = i - l1.length - 1 := by omega
      rw [this]
      exact hprev
    · intro h
      have hnext := (h2 (i - l1.length)).2 h
      rw [List.getElem?_append_right (by omega)]
      have : i + 1 - l1.length = i - l1.length + 1 := by omega
      rw [this]
      exact hnext

theorem crlf_paired_of_plain (l : List Nat) (h : ∀ a ∈ l, a ≠ 10 ∧ a ≠ 13) :
    crlf_paired l := by
  intro i
  constructor
  · intro hi
    obtain ⟨hlt, he⟩ := List.getElem?_eq_some.1 hi
    exact absurd he (h _ (List.getElem_mem hlt)).1
  · intro hi
    obtain ⟨hlt, he⟩ := List.getElem?_eq_some.1 hi
    exact absurd he (h _ (List.getElem_mem hlt)).2

theorem crlf_paired_crlf : crlf_paired [13, 10] := by
  intro i
  rcases i with _ | _ | i
  · simp
  · simp
  · simp

theorem crlf_paired_value (B : List Nat) (hB : value_bytes B) : crlf_paired B := by
  induction hB with
  | nil => exact crlf_paired_of_plain [] (by simp)
  | vchar c B hc _ ih =>
    have hp : crlf_paired [c] := by
      apply crlf_paired_of_plain
      intro a ha
      have hb := fv_bounds c hc
      simp only [List.mem_singleton] at ha
      subst ha
      omega
    exact crlf_paired_append [c] B hp ih
  | ws c B hc _ ih =>
    have hp : crlf_paired [c] := by
      apply crlf_paired_of_plain
      intro a ha
      simp only [List.mem_singleton] at ha
      subst ha
      rcases (ws_iff a).1 hc with h | h <;> omega
    exact crlf_paired_append [c] B hp ih
  | fold c B hc _ ih =>
    have hp : crlf_paired [c] := by
      apply crlf_paired_of_plain
      intro a ha
      simp only [List.mem_singleton] at ha
      subst ha
      rcases (ws_iff a).1 hc with h | h <;> omega
    exact crlf_paired_append [13, 10] (c :: B) crlf_paired_crlf
      (crlf_paired_append [c] B hp ih)

/-- The bytes a call consumed when it parsed a field or met the end of the fields. -/
theorem consumed_form (s : List Nat) (v : value_type)
    (h : (increment_fn s v).ec = none ∨ (increment_fn s v).ec = some error.end_) :
    ∃ C T, s = C ++ T ∧ C.length = (increment_fn s v).it ∧ crlf_paired C ∧
      2 ≤ C.length ∧ C[C.length - 1]? = some 10 := by
  rcases h with h | h
  · obtain ⟨N, B, c, R, hs, hne, hN, hB, hc, hform⟩ := increment_fn_ok_form s v h
    refine ⟨N ++ ([58] ++ (B ++ [13, 10])), c :: R, by rw [hs]; simp, ?_, ?_, ?_, ?_⟩
    · rw [hform]
      simp only [List.length_append, List.length_cons, List.length_nil]
      omega
    · apply crlf_paired_append
      · apply crlf_paired_of_plain
        intro a ha
        have := tchar_bounds a (hN a ha)
        omega
      · apply crlf_paired_append
        · exact crlf_paired_of_plain [58] (by simp)
        · exact crlf_paired_append B [13, 10] (crlf_paired_value B hB) crlf_paired_crlf
    · simp only [List.length_append, List.length_cons, List.length_nil]
      omega
    · have e : N ++ ([58] ++ (B ++ [13, 10])) = (N ++ 58 :: B) ++ [13, 10] := by simp
      have g := getElem?_append_length (N ++ 58 :: B) [13, 10] 1
      rw [e]
      have e2 : ((N ++ 58 :: B) ++ [13, 10]).length - 1 = (N ++ 58 :: B).length + 1 := by
        simp only [List.length_append, List.length_cons, List.length_nil]
        omega
      rw [e2, g]
      rfl
  · rcases header_split s with rfl | ⟨R, rfl⟩ | ⟨hne, hcr, hall⟩ | ⟨N, x, X, rfl, hN, hx, hcr⟩
    · simp [increment_fn_nil, fail_with] at h
    · rcases R with _ | ⟨d, R⟩
      · simp [increment_fn_cr_nil, fail_with] at h
      · by_cases hd : d = 10
        · subst hd
          exact ⟨[13, 10], R, rfl, rfl, crlf_paired_crlf, by simp, rfl⟩
        · simp [increment_fn_cr_other d R v hd, fail_with] at h
    · simp [increment_fn_all_tchar s v hne hcr hall, fail_with] at h
    · rw [increment_fn_split N x X v hN hx hcr] at h
      by_cases h58 : x = 58
      · by_cases h0 : N.length = 0
        · simp [h58, h0, fail_with] at h
        · simp only [h58, ne_eq, not_true_eq_false, if_false, h0] at h
          exact absurd h (scan_ec _ _ _ _ _).1
      · simp [h58, fail_with] at h

/-- C10: on an input whose first LF byte is not immediately preceded by CR,
`header_fields::increment` returns need_more, bad_field_name, bad_line_ending or
bad_field_value, never a parsed field or error::end; and in the bytes consumed by a call
that parsed a field or returned error::end, every LF is immediately preceded by CR and
every CR is immediately followed by LF. -/
theorem bare_lf_rejected :
    (∀ (s : List Nat) (v : value_type) (i : Nat),
      s[i]? = some 10 → (∀ j, j < i → s[j]? ≠ some 10) → (i = 0 ∨ s[i - 1]? ≠ some 13) →
      ∃ r, header_fields.increment s v = some r ∧
        (r.ec = some error.need_more ∨ r.ec = some error.bad_field_name ∨
          r.ec = some error.bad_line_ending ∨ r.ec = some error.bad_field_value)) ∧
    (∀ (s : List Nat) (v : value_type) (r : increment_result),
      header_fields.increment s v = some r → (r.ec = none ∨ r.ec = some error.end_) →
      crlf_paired (s.take r.it)) := by
  constructor
  · intro s v i hi hfirst hprev
    rw [increment_eq]
    refine ⟨_, rfl, ?_⟩
    by_contra hcon
    have hok : (increment_fn s v).ec = none ∨ (increment_fn s v).ec = some error.end_ := by
      rcases hec : (increment_fn s v).ec with _ | e
      · exact Or.inl rfl
      · cases e
        · exact absurd (Or.inl hec) hcon
        · exact Or.inr rfl
        · exact absurd (Or.inr (Or.inl hec)) hcon
        · exact absurd (Or.inr (Or.inr (Or.inl hec))) hcon
        · exact absurd (Or.inr (Or.inr (Or.inr hec))) hcon
    obtain ⟨C, T, hs, _, hpair, h2, hlast⟩ := consumed_form s v hok
    have hlt : i < C.length := by
      by_contra hge
      refine hfirst (C.length - 1) (by omega) ?_
      rw [hs, List.getElem?_append_left (by omega)]
      exact hlast
    have hCi : C[i]? = some 10 := by
      rw [hs, List.getElem?_append_left hlt] at hi
      exact hi
    obtain ⟨hpos, hp⟩ := (hpair i).1 hCi
    rcases hprev with h0 | hne
    · omega
    · apply hne
      rw [hs, List.getElem?_append_left (by omega)]
      exact hp
  · intro s v r h hok
    rw [increment_eq] at h
    have hr : increment_fn s v = r := Option.some.inj h
    subst hr
    obtain ⟨C, T, hs, hlen, hpair, _, _⟩ := consumed_form s v hok
    rw [← hlen, hs, List.take_left]
    exact hpair

theorem bare_lf_rejected_witness :
    (∃ r, header_fields.increment (bytes "x: y\n\r\n") value_type.init = some r ∧
        (r.ec = some error.need_more ∨ r.ec = some error.bad_field_name ∨
          r.ec = some error.bad_line_ending ∨ r.ec = some error.bad_field_value)) ∧
    crlf_paired ((bytes "x: y\r\n z\r\n\r\n").take 10) :=
  ⟨bare_lf_rejected.1 (bytes "x: y\n\r\n") value_type.init 4 (by decide) (by decide)
      (by decide),
    bare_lf_rejected.2 (bytes "x: y\r\n z\r\n\r\n") value_type.init
      ⟨10, none, ⟨⟨0, 1⟩, ⟨3, 5⟩, true⟩⟩ (by decide) (by decide)⟩

/-! ## circular_buffer: size_t arithmetic -/

theorem size_add_eq (a b : Nat) (h : a + b < 2 ^ 64) : size_add a b = a + b := by
  unfold size_add
  omega

theorem size_sub_eq (a b : Nat) (h : b ≤ a) (ha : a < 2 ^ 64) : size_sub a b = a - b := by
  unfold size_sub
  omega

theorem size_rem_eq (a b : Nat) (h : 0 < b) : size_rem a b = some (a % b) := by
  unfold size_rem
  rw [if_neg (by omega)]

theorem mod_two_cases (x c : Nat) (h : x < 2 * c) :
    x % c = if x < c then x else x - c := by
  by_cases hx : x < c
  · rw [if_pos hx, Nat.mod_eq_of_lt hx]
  · rw [if_neg hx, Nat.mod_eq_sub_mod (by omega), Nat.mod_eq_of_lt (by omega)]

/-! ## circular_buffer::prepare -/

/-- C11: the code misses the claim. On the full buffer of capacity 10 (a new buffer after
`commit(10)`), whose free region is empty, `prepare()` returns a first range of length 0 and
a second range of length `2 ^ 64 - 10`; on the state with `in_pos_ = 5` and `in_len_ = 7`
(reached by `commit(7)`, `consume(5)`, `commit(5)`), whose free region is the three bytes at
offsets 2 to 4, it returns a first range of length 3 and a second of length `2 ^ 64 - 5`.
In both states the free region is contiguous, the second range is not empty and the sizes
do not sum to `cap_ - in_len_`, also as a `std::size_t` sum. -/
theorem prepare_second_range_underflows :
    (circular_buffer.ctor 10).commit 10 = ⟨10, 0, 10⟩ ∧
    circular_buffer.prepare ⟨10, 0, 10⟩ = some (⟨0, 0⟩, ⟨0, 2 ^ 64 - 10⟩) ∧
    size_add 0 (2 ^ 64 - 10) ≠ 10 - 10 ∧
    (((circular_buffer.ctor 10).commit 7).consume 5).map (fun b => b.commit 5)
      = some ⟨10, 5, 7⟩ ∧
    circular_buffer.prepare ⟨10, 5, 7⟩ = some (⟨2, 3⟩, ⟨0, 2 ^ 64 - 5⟩) ∧
    size_add 3 (2 ^ 64 - 5) ≠ 10 - 7 := by
  decide

/-! ## circular_buffer: readable bytes -/

theorem data_size_mod (b : circular_buffer) (hs : b.is_size_t) :
    buffer_size b.data = b.in_len_ := by
  obtain ⟨h1, h2, h3⟩ := hs
  unfold buffer_size circular_buffer.data
  split
  · simp only [size_add]
    omega
  · simp only [size_add, size_sub]
    omega

theorem data_size_exact (b : circular_buffer) (hs : b.is_size_t)
    (hpos : b.in_pos_ ≤ b.cap_) (hlen : b.in_len_ ≤ b.cap_) :
    b.data.1.size + b.data.2.size = b.in_len_ := by
  obtain ⟨h1, h2, h3⟩ := hs
  unfold circular_buffer.data
  split
  · rfl
  · rename_i hc
    simp only [size_add, size_sub] at hc ⊢
    omega

theorem commit_is_size_t (b : circular_buffer) (k : Nat) (hs : b.is_size_t) :
    (b.commit k).is_size_t := by
  obtain ⟨h1, h2, h3⟩ := hs
  refine ⟨h1, h2, ?_⟩
  show size_add b.in_len_ k < 2 ^ 64
  unfold size_add
  omega

theorem commit_in_len (b : circular_buffer) (k : Nat) (hs : b.is_size_t)
    (hlen : b.in_len_ ≤ b.cap_) (hk : b.commit_pre k) :
    (b.commit k).in_len_ = b.in_len_ + k ∧ b.in_len_ + k ≤ b.cap_ := by
  obtain ⟨h1, h2, h3⟩ := hs
  unfold circular_buffer.commit_pre size_sub at hk
  show size_add b.in_len_ k = b.in_len_ + k ∧ _
  unfold size_add
  omega

/-- What `consume(n)` returns on a state with `in_len_ ≤ cap_`. -/
theorem consume_eq (b : circular_buffer) (n : Nat) (hs : b.is_size_t)
    (hlen : b.in_len_ ≤ b.cap_) :
    b.consume n = some
      (if n < b.in_len_ then
        ⟨b.cap_, size_add b.in_pos_ n % b.cap_, b.in_len_ - n⟩
      else ⟨b.cap_, 0, 0⟩) := by
  obtain ⟨h1, h2, h3⟩ := hs
  unfold circular_buffer.consume
  by_cases hn : n < b.in_len_
  · rw [if_pos hn, if_pos hn, size_rem_eq _ _ (by omega), size_sub_eq _ _ (by omega) h3]
  · rw [if_neg hn, if_neg hn]

/-- The state after `consume(n)` on a state with `in_len_ ≤ cap_`. -/
theorem consume_sizes (b : circular_buffer) (k : Nat) (hs : b.is_size_t)
    (hlen : b.in_len_ ≤ b.cap_) :
    ∃ b', b.consume k = some b' ∧ b'.is_size_t ∧ b'.in_pos_ ≤ b'.cap_ ∧
      b'.in_len_ ≤ b'.cap_ ∧ b'.in_len_ = b.in_len_ - min k b.in_len_ ∧
      b'.cap_ = b.cap_ := by
  refine ⟨_, consume_eq b k hs hlen, ?_⟩
  obtain ⟨h1, h2, h3⟩ := hs
  by_cases hk : k < b.in_len_
  · rw [if_pos hk]
    have hmod : size_add b.in_pos_ k % b.cap_ < b.cap_ := Nat.mod_lt _ (by omega)
    have hmin : min k b.in_len_ = k := by omega
    rw [hmin]
    exact ⟨⟨h1, by show _ % _ < _; omega, by show _ - _ < _; omega⟩,
      by show _ % _ ≤ b.cap_; omega, by show b.in_len_ - k ≤ b.cap_; omega, rfl, rfl⟩
  · rw [if_neg hk]
    have hmin : min k b.in_len_ = b.in_len_ := by omega
    rw [hmin]
    exact ⟨⟨h1, by show 0 < _; omega, by show 0 < _; omega⟩,
      by show 0 ≤ b.cap_; omega, by show 0 ≤ b.cap_; omega, by show 0 = _; omega, rfl⟩

/-- C12: on every state with `in_len_ ≤ cap_` the sizes of the two ranges of `data()` sum
to `in_len_`; after `commit(k)` with `k ≤ cap_ - in_len_` that sum has grown by exactly `k`;
after `consume(k)`, for any `k`, it has shrunk by exactly `min k in_len_`. The sums are
`std::size_t` sums, and they are plain sums as well when `in_pos_ ≤ cap_`. -/
theorem readable_accounting (b : circular_buffer) (hs : b.is_size_t)
    (hlen : b.in_len_ ≤ b.cap_) :
    buffer_size b.data = b.in_len_ ∧
    (∀ k, b.commit_pre k → buffer_size (b.commit k).data = buffer_size b.data + k) ∧
    (∀ k, ∃ b', b.consume k = some b' ∧
      buffer_size b'.data = buffer_size b.data - min k b.in_len_ ∧
      b'.data.1.size + b'.data.2.size = buffer_size b.data - min k b.in_len_) ∧
    (b.in_pos_ ≤ b.cap_ →
      b.data.1.size + b.data.2.size = b.in_len_ ∧
      ∀ k, b.commit_pre k →
        (b.commit k).data.1.size + (b.commit k).data.2.size
          = b.data.1.size + b.data.2.size + k) := by
  have hd := data_size_mod b hs
  refine ⟨hd, ?_, ?_, ?_⟩
  · intro k hk
    rw [data_size_mod _ (commit_is_size_t b k hs), hd]
    exact (commit_in_len b k hs hlen hk).1
  · intro k
    obtain ⟨b', hb', hs', hpos', hlen', hin, _⟩ := consume_sizes b k hs hlen
    refine ⟨b', hb', ?_, ?_⟩
    · rw [data_size_mod b' hs', hd, hin]
    · rw [data_size_exact b' hs' hpos' hlen', hd, hin]
  · intro hpos
    have he := data_size_exact b hs hpos hlen
    refine ⟨he, ?_⟩
    intro k hk
    obtain ⟨e1, e2⟩ := commit_in_len b k hs hlen hk
    rw [data_size_exact _ (commit_is_size_t b k hs) hpos (by rw [e1]; exact e2), he, e1]

theorem readable_accounting_witness :
    buffer_size (circular_buffer.data ⟨10, 5, 7⟩) = 7 ∧
    (∀ k, circular_buffer.commit_pre ⟨10, 5, 7⟩ k →
      buffer_size (circular_buffer.commit ⟨10, 5, 7⟩ k).data
        = buffer_size (circular_buffer.data ⟨10, 5, 7⟩) + k) ∧
    (∀ k, ∃ b', circular_buffer.consume ⟨10, 5, 7⟩ k = some b' ∧
      buffer_size b'.data = buffer_size (circular_buffer.data ⟨10, 5, 7⟩) - min k 7 ∧
      b'.data.1.size + b'.data.2.size
        = buffer_size (circular_buffer.data ⟨10, 5, 7⟩) - min k 7) ∧
    (5 ≤ 10 →
      (circular_buffer.data ⟨10, 5, 7⟩).1.size + (circular_buffer.data ⟨10, 5, 7⟩).2.size = 7 ∧
      ∀ k, circular_buffer.commit_pre ⟨10, 5, 7⟩ k →
        (circular_buffer.commit ⟨10, 5, 7⟩ k).data.1.size
            + (circular_buffer.commit ⟨10, 5, 7⟩ k).data.2.size
          = (circular_buffer.data ⟨10, 5, 7⟩).1.size
            + (circular_buffer.data ⟨10, 5, 7⟩).2.size + k) :=
  readable_accounting ⟨10, 5, 7⟩ (by decide) (by decide)

/-! ## circular_buffer: the state invariant -/

/-- C14: starting from a newly constructed buffer with `capacity > 0`, every sequence of
`commit(n)` calls that meet the precondition `n ≤ cap_ - in_len_` and of `consume(n)` calls
with arbitrary `n` keeps `in_len_ ≤ capacity` and `in_pos_ < capacity` (and `cap_`); in
every such state `consume(n)` returns. -/
theorem circular_buffer_invariant (capacity : Nat) (b : circular_buffer)
    (hcap : 0 < capacity) (h64 : capacity < 2 ^ 64)
    (hr : circular_buffer.reachable capacity b) :
    b.cap_ = capacity ∧ b.in_len_ ≤ capacity ∧ b.in_pos_ < capacity ∧
      ∀ n, ∃ b', b.consume n = some b' := by
  have key : b.cap_ = capacity ∧ b.in_len_ ≤ capacity ∧ b.in_pos_ < capacity := by
    induction hr with
    | ctor => exact ⟨rfl, Nat.zero_le _, hcap⟩
    | commit b n _ hpre ih =>
      obtain ⟨h1, h2, h3⟩ := ih
      have hs : b.is_size_t := ⟨by omega, by omega, by omega⟩
      obtain ⟨e1, e2⟩ := commit_in_len b n hs (by omega) hpre
      exact ⟨h1, by rw [e1]; omega, h3⟩
    | consume b n b' _ hb' ih =>
      obtain ⟨h1, h2, h3⟩ := ih
      have hs : b.is_size_t := ⟨by omega, by omega, by omega⟩
      rw [consume_eq b n hs (by omega)] at hb'
      have hb := Option.some.inj hb'
      subst hb
      by_cases hn : n < b.in_len_
      · rw [if_pos hn]
        have hmod : size_add b.in_pos_ n % b.cap_ < b.cap_ := Nat.mod_lt _ (by omega)
        exact ⟨h1, by show b.in_len_ - n ≤ capacity; omega,
          by show size_add b.in_pos_ n % b.cap_ < capacity; omega⟩
      · rw [if_neg hn]
        exact ⟨h1, Nat.zero_le _, hcap⟩
  obtain ⟨h1, h2, h3⟩ := key
  refine ⟨h1, h2, h3, ?_⟩
  intro n
  exact ⟨_, consume_eq b n ⟨by omega, by omega, by omega⟩ (by omega)⟩

theorem circular_buffer_invariant_witness :
    (⟨10, 5, 7⟩ : circular_buffer).cap_ = 10 ∧ (⟨10, 5, 7⟩ : circular_buffer).in_len_ ≤ 10 ∧
      (⟨10, 5, 7⟩ : circular_buffer).in_pos_ < 10 ∧
      ∀ n, ∃ b', circular_buffer.consume ⟨10, 5, 7⟩ n = some b' :=
  circular_buffer_invariant 10 ⟨10, 5, 7⟩ (by decide) (by decide)
    (circular_buffer.reachable.commit ⟨10, 5, 2⟩ 5
      (circular_buffer.reachable.consume ⟨10, 0, 7⟩ 5 ⟨10, 5, 2⟩
        (circular_buffer.reachable.commit ⟨10, 0, 0⟩ 7 circular_buffer.reachable.ctor
          (by decide))
        (by decide))
      (by decide))

/-! ## circular_buffer: consuming everything -/

/-- C15: on every state with `cap_ > 0` and `in_len_ ≤ cap_`, `consume(n)` with
`n ≥ in_len_` leaves `in_pos_ = 0` and `in_len_ = 0`, and the next `prepare()` returns a
first range at offset 0 of length `cap_` and a second range of length 0; with `n < in_len_`
it leaves `in_len_ - n` and `(in_pos_ + n) % cap_`, the sum being a `std::size_t` sum, which
is the plain sum when `in_pos_ + n < 2 ^ 64`. -/
theorem consume_all_compacts (b : circular_buffer) (n : Nat) (hs : b.is_size_t)
    (hcap : 0 < b.cap_) (hlen : b.in_len_ ≤ b.cap_) :
    (b.in_len_ ≤ n →
      ∃ b', b.consume n = some b' ∧ b'.in_pos_ = 0 ∧ b'.in_len_ = 0 ∧
        b'.prepare = some (⟨0, b.cap_⟩, ⟨0, 0⟩)) ∧
    (n < b.in_len_ →
      ∃ b', b.consume n = some b' ∧ b'.in_len_ = b.in_len_ - n ∧
        b'.in_pos_ = size_add b.in_pos_ n % b.cap_ ∧
        (b.in_pos_ + n < 2 ^ 64 → b'.in_pos_ = (b.in_pos_ + n) % b.cap_)) := by
  obtain ⟨h1, h2, h3⟩ := hs
  constructor
  · intro hn
    refine ⟨⟨b.cap_, 0, 0⟩, ?_, rfl, rfl, ?_⟩
    · rw [consume_eq b n ⟨h1, h2, h3⟩ hlen, if_neg (by omega)]
    · unfold circular_buffer.prepare
      simp only
      rw [size_add_eq 0 0 (by omega), size_rem_eq 0 b.cap_ hcap, Nat.zero_mod,
        size_sub_eq b.cap_ 0 (by omega) h1]
      simp only [Nat.sub_zero]
      rw [size_add_eq 0 b.cap_ (by omega), if_pos (by omega),
        size_sub_eq b.cap_ 0 (by omega) h1, Nat.sub_zero,
        size_sub_eq b.cap_ b.cap_ (by omega) h1, Nat.sub_self]
  · intro hn
    refine ⟨⟨b.cap_, size_add b.in_pos_ n % b.cap_, b.in_len_ - n⟩, ?_, rfl, rfl, ?_⟩
    · rw [consume_eq b n ⟨h1, h2, h3⟩ hlen, if_pos hn]
    · intro hsum
      show size_add b.in_pos_ n % b.cap_ = _
      rw [size_add_eq _ _ hsum]

theorem consume_all_compacts_witness :
    ((7 : Nat) ≤ 9 →
      ∃ b', circular_buffer.consume ⟨10, 5, 7⟩ 9 = some b' ∧ b'.in_pos_ = 0 ∧ b'.in_len_ = 0 ∧
        b'.prepare = some (⟨0, 10⟩, ⟨0, 0⟩)) ∧
    (9 < 7 →
      ∃ b', circular_buffer.consume ⟨10, 5, 7⟩ 9 = some b' ∧ b'.in_len_ = 7 - 9 ∧
        b'.in_pos_ = size_add 5 9 % 10 ∧
        (5 + 9 < 2 ^ 64 → b'.in_pos_ = (5 + 9) % 10)) :=
  consume_all_compacts ⟨10, 5, 7⟩ 9 (by decide) (by decide) (by decide)

/-! ## serializer::chunked_overhead_ -/

/-- C16: `serializer::chunked_overhead_` equals 25, and for every chunk size `n` with
`0 < n < 2 ^ 64` the number of hexadecimal digits of `n` is at most 16, so the digits, the
CRLF after them, the CRLF after the payload and the final "0" CRLF CRLF take at most
`chunked_overhead_` bytes. -/
theorem chunked_overhead_bound :
    serializer.chunked_overhead_ = 25 ∧
    ∀ n, 0 < n → n < 2 ^ 64 →
      hex_digits n ≤ 16 ∧ hex_digits n + 2 + 2 + 5 ≤ serializer.chunked_overhead_ := by
  refine ⟨rfl, ?_⟩
  intro n _ hn
  have h : hex_digits n ≤ 16 := by
    unfold hex_digits Nat.toDigits
    exact Nat.toDigitsCore_length 16 (by decide) (n + 1) n 16 (by omega) (by decide)
  refine ⟨h, ?_⟩
  show hex_digits n + 2 + 2 + 5 ≤ 25
  omega

theorem chunked_overhead_bound_witness :
    hex_digits 255 ≤ 16 ∧ hex_digits 255 + 2 + 2 + 5 ≤ serializer.chunked_overhead_ :=
  chunked_overhead_bound.2 255 (by decide) (by decide)

/-! ## circular_buffer::data stays inside the region -/

/-- What `data()` returns when `in_pos_ + in_len_` does not wrap. -/
theorem data_eq (b : circular_buffer) (hfit : b.cap_ ≤ PTRDIFF_MAX) (hpos : b.in_pos_ ≤ b.cap_)
    (hlen : b.in_len_ ≤ b.cap_) :
    b.data =
      if b.in_pos_ + b.in_len_ ≤ b.cap_ then (⟨b.in_pos_, b.in_len_⟩, ⟨0, 0⟩)
      else (⟨b.in_pos_, b.cap_ - b.in_pos_⟩, ⟨0, b.in_len_ - (b.cap_ - b.in_pos_)⟩) := by
  unfold PTRDIFF_MAX at hfit
  unfold circular_buffer.data
  rw [size_add_eq _ _ (by omega), size_sub_eq b.cap_ b.in_pos_ hpos (by omega)]
  by_cases h : b.in_pos_ + b.in_len_ ≤ b.cap_
  · rw [if_pos h, if_pos h]
  · rw [if_neg h, if_neg h, size_sub_eq _ _ (by omega) (by omega)]

/-- C17: on every state with `in_pos_ < cap_` and `in_len_ ≤ cap_` (over a region in
memory, of at most `PTRDIFF_MAX` bytes) each of the two ranges of `data()` lies within
`[0, cap_)`, the two ranges do not overlap, the second range is non-empty only when the
first ends exactly at offset `cap_`, and no subtraction that `data()` evaluates
underflows. -/
theorem data_inside_region (b : circular_buffer) (hfit : b.cap_ ≤ PTRDIFF_MAX)
    (hpos : b.in_pos_ < b.cap_) (hlen : b.in_len_ ≤ b.cap_) :
    b.data.1.data + b.data.1.size ≤ b.cap_ ∧
    b.data.2.data + b.data.2.size ≤ b.cap_ ∧
    (∀ i, ¬ (b.data.1.data ≤ i ∧ i < b.data.1.data + b.data.1.size ∧
      b.data.2.data ≤ i ∧ i < b.data.2.data + b.data.2.size)) ∧
    (0 < b.data.2.size → b.data.1.data + b.data.1.size = b.cap_) ∧
    (∀ p ∈ b.data_subtractions, p.2 ≤ p.1) := by
  have hP : b.cap_ < 2 ^ 63 := by unfold PTRDIFF_MAX at hfit; omega
  have hsub : ∀ p ∈ b.data_subtractions, p.2 ≤ p.1 := by
    unfold circular_buffer.data_subtractions
    rw [size_add_eq _ _ (by omega), size_sub_eq b.cap_ b.in_pos_ (by omega) (by omega)]
    by_cases h : b.in_pos_ + b.in_len_ ≤ b.cap_
    · rw [if_pos h]
      simp
    · rw [if_neg h]
      intro p hp
      simp only [List.mem_cons, List.mem_singleton, List.not_mem_nil, or_false] at hp
      rcases hp with rfl | rfl | rfl <;> simp only <;> omega
  rw [data_eq b hfit (by omega) hlen]
  by_cases h : b.in_pos_ + b.in_len_ ≤ b.cap_
  · rw [if_pos h]
    simp only
    exact ⟨h, by omega, by intro i; omega, by omega, hsub⟩
  · rw [if_neg h]
    simp only
    exact ⟨by omega, by omega, by intro i; omega, by omega, hsub⟩

theorem data_inside_region_witness :
    (circular_buffer.data ⟨10, 5, 7⟩).1.data + (circular_buffer.data ⟨10, 5, 7⟩).1.size ≤ 10 ∧
    (circular_buffer.data ⟨10, 5, 7⟩).2.data + (circular_buffer.data ⟨10, 5, 7⟩).2.size ≤ 10 ∧
    (∀ i, ¬ ((circular_buffer.data ⟨10, 5, 7⟩).1.data ≤ i ∧
      i < (circular_buffer.data ⟨10, 5, 7⟩).1.data + (circular_buffer.data ⟨10, 5, 7⟩).1.size ∧
      (circular_buffer.data ⟨10, 5, 7⟩).2.data ≤ i ∧
      i < (circular_buffer.data ⟨10, 5, 7⟩).2.data
        + (circular_buffer.data ⟨10, 5, 7⟩).2.size)) ∧
    (0 < (circular_buffer.data ⟨10, 5, 7⟩).2.size →
      (circular_buffer.data ⟨10, 5, 7⟩).1.data + (circular_buffer.data ⟨10, 5, 7⟩).1.size
        = 10) ∧
    (∀ p ∈ circular_buffer.data_subtractions ⟨10, 5, 7⟩, p.2 ≤ p.1) :=
  data_inside_region ⟨10, 5, 7⟩ (by decide) (by decide) (by decide)

/-! ## circular_buffer is a FIFO byte queue -/

/-- The readable bytes by position: the `k`-th is the byte of the region at offset
`(in_pos_ + k) % cap_`. -/
theorem contents_getElem? (b : circular_buffer) (mem : List Nat) (hfit : b.cap_ ≤ PTRDIFF_MAX)
    (hpos : b.in_pos_ < b.cap_) (hlen : b.in_len_ ≤ b.cap_) (hmem : mem.length = b.cap_)
    (k : Nat) :
    (b.contents mem)[k]? = if k < b.in_len_ then mem[(b.in_pos_ + k) % b.cap_]? else none := by
  unfold circular_buffer.contents
  rw [data_eq b hfit (by omega) hlen]
  by_cases h : b.in_pos_ + b.in_len_ ≤ b.cap_
  · rw [if_pos h]
    simp only [List.take_zero, List.append_nil]
    rw [List.getElem?_take, List.getElem?_drop]
    by_cases hk : k < b.in_len_
    · rw [if_pos hk, if_pos hk, Nat.mod_eq_of_lt (by omega)]
    · rw [if_neg hk, if_neg hk]
  · rw [if_neg h]
    simp only [List.drop_zero]
    have hl1 : ((mem.drop b.in_pos_).take (b.cap_ - b.in_pos_)).length = b.cap_ - b.in_pos_ := by
      rw [List.length_take, List.length_drop]
      omega
    rw [List.getElem?_append, hl1]
    by_cases hk1 : k < b.cap_ - b.in_pos_
    · rw [if_pos hk1, if_pos (by omega), List.getElem?_take, if_pos hk1, List.getElem?_drop,
        Nat.mod_eq_of_lt (by omega)]
    · rw [if_neg hk1, List.getElem?_take]
      by_cases hk : k < b.in_len_
      · rw [if_pos hk, if_pos (by omega), mod_two_cases _ _ (by omega), if_neg (by omega)]
        congr 1
        omega
      · rw [if_neg hk, if_neg (by omega)]

theorem contents_length (b : circular_buffer) (mem : List Nat) (hfit : b.cap_ ≤ PTRDIFF_MAX)
    (hpos : b.in_pos_ < b.cap_) (hlen : b.in_len_ ≤ b.cap_) (hmem : mem.length = b.cap_) :
    (b.contents mem).length = b.in_len_ := by
  unfold circular_buffer.contents
  rw [data_eq b hfit (by omega) hlen]
  by_cases h : b.in_pos_ + b.in_len_ ≤ b.cap_
  · rw [if_pos h]
    simp only [List.length_append, List.length_take, List.length_drop]
    omega
  · rw [if_neg h]
    simp only [List.length_append, List.length_take, List.length_drop]
    omega

/-- What `prepare()` returns when `in_pos_ + in_len_` does not wrap. -/
theorem prepare_eq (b : circular_buffer) (hfit : b.cap_ ≤ PTRDIFF_MAX)
    (hpos : b.in_pos_ < b.cap_) (hlen : b.in_len_ ≤ b.cap_) :
    b.prepare = some
      (if (b.in_pos_ + b.in_len_) % b.cap_ + (b.cap_ - b.in_len_) ≤ b.cap_ then
        (⟨(b.in_pos_ + b.in_len_) % b.cap_, b.cap_ - b.in_len_⟩,
          ⟨0, size_sub (b.cap_ - b.in_len_) (b.cap_ - (b.in_pos_ + b.in_len_) % b.cap_)⟩)
      else
        (⟨(b.in_pos_ + b.in_len_) % b.cap_, b.cap_ - (b.in_pos_ + b.in_len_) % b.cap_⟩,
          ⟨0, b.cap_ - b.in_len_ - (b.cap_ - (b.in_pos_ + b.in_len_) % b.cap_)⟩)) := by
  have hP : b.cap_ < 2 ^ 63 := by unfold PTRDIFF_MAX at hfit; omega
  have hmod : (b.in_pos_ + b.in_len_) % b.cap_ < b.cap_ := Nat.mod_lt _ (by omega)
  unfold circular_buffer.prepare
  simp only
  rw [size_add_eq _ _ (by omega), size_rem_eq _ _ (by omega),
    size_sub_eq b.cap_ b.in_len_ hlen (by omega)]
  simp only
  rw [size_add_eq _ _ (by omega), size_sub_eq b.cap_ _ (by omega) (by omega)]
  by_cases h : (b.in_pos_ + b.in_len_) % b.cap_ + (b.cap_ - b.in_len_) ≤ b.cap_
  · rw [if_pos h, if_pos h]
  · rw [if_neg h, if_neg h, size_sub_eq _ _ (by omega) (by omega)]

/-- The `j`-th byte written into the ranges of `prepare()` goes to offset
`(in_pos_ + in_len_ + j) % cap_` of the region. -/
theorem write_pos_prepare (b : circular_buffer) (p : mutable_buffer × mutable_buffer)
    (hfit : b.cap_ ≤ PTRDIFF_MAX) (hpos : b.in_pos_ < b.cap_) (hlen : b.in_len_ ≤ b.cap_)
    (hp : b.prepare = some p) (j : Nat) (hj : j < b.cap_ - b.in_len_) :
    write_pos p j = (b.in_pos_ + b.in_len_ + j) % b.cap_ := by
  rw [prepare_eq b hfit hpos hlen, mod_two_cases (b.in_pos_ + b.in_len_) b.cap_ (by omega)] at hp
  rw [mod_two_cases (b.in_pos_ + b.in_len_ + j) b.cap_ (by omega)]
  unfold write_pos
  by_cases h1 : b.in_pos_ + b.in_len_ < b.cap_
  · simp only [if_pos h1] at hp
    by_cases h2 : b.in_pos_ + b.in_len_ + (b.cap_ - b.in_len_) ≤ b.cap_
    · rw [if_pos h2] at hp
      have hp' := Option.some.inj hp
      subst hp'
      simp only
      rw [if_pos hj, if_pos (by omega)]
    · rw [if_neg h2] at hp
      have hp' := Option.some.inj hp
      subst hp'
      simp only
      by_cases h3 : j < b.cap_ - (b.in_pos_ + b.in_len_)
      · rw [if_pos h3, if_pos (by omega)]
      · rw [if_neg h3, if_neg (by omega)]
        omega
  · simp only [if_neg h1] at hp
    rw [if_pos (by omega)] at hp
    have hp' := Option.some.inj hp
    subst hp'
    simp only
    rw [if_pos hj, if_neg (by omega)]
    omega

/-- The region after `write_bytes`: the written positions hold the bytes of `w`, every
other position is unchanged. -/
theorem write_bytes_spec (p : mutable_buffer × mutable_buffer) :
    ∀ (w mem : List Nat) (j0 : Nat),
      (∀ j, j0 ≤ j → j < j0 + w.length → write_pos p j < mem.length) →
      (∀ j j', j0 ≤ j → j < j' → j' < j0 + w.length → write_pos p j ≠ write_pos p j') →
      (write_bytes p mem j0 w).length = mem.length ∧
      (∀ j, j < w.length → (write_bytes p mem j0 w)[write_pos p (j0 + j)]? = w[j]?) ∧
      (∀ i, (∀ j, j < w.length → i ≠ write_pos p (j0 + j)) →
        (write_bytes p mem j0 w)[i]? = mem[i]?) := by
  intro w
  induction w with
  | nil =>
    intro mem j0 _ _
    refine ⟨rfl, ?_, ?_⟩
    · intro j hj
      simp at hj
    · intro i _
      rfl
  | cons x w ih =>
    intro mem j0 hlt hinj
    simp only [List.length_cons] at hlt hinj
    have hih := ih (mem.set (write_pos p j0) x) (j0 + 1)
      (by intro j h1 h2; rw [List.length_set]; exact hlt j (by omega) (by omega))
      (by intro j j' h1 h2 h3; exact hinj j j' (by omega) h2 (by omega))
    obtain ⟨e1, e2, e3⟩ := hih
    rw [List.length_set] at e1
    show (write_bytes p (mem.set (write_pos p j0) x) (j0 + 1) w).length = _ ∧ _
    refine ⟨e1, ?_, ?_⟩
    · intro j hj
      show (write_bytes p (mem.set (write_pos p j0) x) (j0 + 1) w)[_]? = _
      rcases j with _ | j
      · have hne : ∀ j', j' < w.length → write_pos p j0 ≠ write_pos p (j0 + 1 + j') :=
          fun j' hj' => hinj j0 (j0 + 1 + j') (Nat.le_refl _) (by omega) (by omega)
        show (write_bytes p (mem.set (write_pos p j0) x) (j0 + 1) w)[write_pos p j0]? = _
        rw [e3 _ hne, List.getElem?_set_self (hlt j0 (by omega) (by omega))]
        simp
      · simp only [List.length_cons] at hj
        have := e2 j (by omega)
        rw [show j0 + (j + 1) = j0 + 1 + j by omega, this]
        simp
    · intro i hi
      show (write_bytes p (mem.set (write_pos p j0) x) (j0 + 1) w)[_]? = _
      rw [e3 i (by
        intro j hj
        have := hi (j + 1) (by simp only [List.length_cons]; omega)
        rw [show j0 + (j + 1) = j0 + 1 + j by omega] at this
        exact this)]
      have h0 := hi 0 (by simp)
      rw [Nat.add_zero] at h0
      exact List.getElem?_set_ne (Ne.symm h0)

theorem mod_ne_of_lt (a d c : Nat) (ha : a + d < 2 * c) (hd : 0 < d) (hdc : d < c) :
    a % c ≠ (a + d) % c := by
  rw [mod_two_cases a c (by omega), mod_two_cases (a + d) c ha]
  split_ifs <;> omega

/-- C13: over a region of `cap_` bytes in memory, on every state with `cap_ > 0`,
`in_pos_ < cap_` and `in_len_ ≤ cap_`: writing the bytes `w`, `|w| ≤ cap_ - in_len_`, in
order into the first range of `prepare()` and then its second, and calling `commit(|w|)`,
appends `w` to the readable bytes; and `consume(n)`, which does not touch the region, drops
the first `min n in_len_` readable bytes. -/
theorem circular_buffer_fifo (b : circular_buffer) (mem w : List Nat)
    (hfit : b.cap_ ≤ PTRDIFF_MAX) (hpos : b.in_pos_ < b.cap_) (hlen : b.in_len_ ≤ b.cap_)
    (hmem : mem.length = b.cap_) (hw : w.length ≤ b.cap_ - b.in_len_) :
    (∃ p, b.prepare = some p ∧
      (b.commit w.length).contents (write_bytes p mem 0 w) = b.contents mem ++ w) ∧
    (∀ n, ∃ b', b.consume n = some b' ∧
      b'.contents mem = (b.contents mem).drop (min n b.in_len_)) := by
  have hP : b.cap_ < 2 ^ 63 := by unfold PTRDIFF_MAX at hfit; omega
  have hs : b.is_size_t := ⟨by omega, by omega, by omega⟩
  constructor
  · obtain ⟨p, hp⟩ : ∃ p, b.prepare = some p := ⟨_, prepare_eq b hfit hpos hlen⟩
    refine ⟨p, hp, ?_⟩
    have hwp : ∀ j, j < w.length → write_pos p j = (b.in_pos_ + b.in_len_ + j) % b.cap_ :=
      fun j hj => write_pos_prepare b p hfit hpos hlen hp j (by omega)
    obtain ⟨e1, e2, e3⟩ := write_bytes_spec p w mem 0
      (by
        intro j _ hj
        rw [hwp j (by omega), hmem]
        exact Nat.mod_lt _ (by omega))
      (by
        intro j j' _ hjj hj'
        rw [hwp j (by omega), hwp j' (by omega)]
        have := mod_ne_of_lt (b.in_pos_ + b.in_len_ + j) (j' - j) b.cap_ (by omega) (by omega)
          (by omega)
        rw [show b.in_pos_ + b.in_len_ + j + (j' - j) = b.in_pos_ + b.in_len_ + j' by omega]
          at this
        exact this)
    have hpre : b.commit_pre w.length := by
      unfold circular_buffer.commit_pre
      rw [size_sub_eq _ _ hlen (by omega)]
      exact hw
    obtain ⟨c1, c2⟩ := commit_in_len b w.length hs hlen hpre
    apply List.ext_getElem?
    intro k
    rw [contents_getElem? (b.commit w.length) _ hfit hpos (by rw [c1]; exact c2)
      (by rw [e1]; exact hmem), c1, List.getElem?_append,
      contents_length b mem hfit hpos hlen hmem, contents_getElem? b mem hfit hpos hlen hmem]
    show (if k < b.in_len_ + w.length then
        (write_bytes p mem 0 w)[(b.in_pos_ + k) % b.cap_]? else none) = _
    by_cases hk : k < b.in_len_
    · rw [if_pos (by omega), if_pos hk, if_pos hk]
      apply e3
      intro j hj
      rw [Nat.zero_add, hwp j hj]
      have := mod_ne_of_lt (b.in_pos_ + k) (b.in_len_ + j - k) b.cap_ (by omega) (by omega)
        (by omega)
      rw [show b.in_pos_ + k + (b.in_len_ + j - k) = b.in_pos_ + b.in_len_ + j by omega] at this
      exact this
    · rw [if_neg hk]
      by_cases hk2 : k < b.in_len_ + w.length
      · rw [if_pos hk2]
        have := e2 (k - b.in_len_) (by omega)
        rw [Nat.zero_add, hwp _ (by omega),
          show b.in_pos_ + b.in_len_ + (k - b.in_len_) = b.in_pos_ + k by omega] at this
        exact this
      · rw [if_neg hk2]
        exact (List.getElem?_eq_none (by omega)).symm
  · intro n
    refine ⟨_, consume_eq b n hs hlen, ?_⟩
    apply List.ext_getElem?
    intro k
    rw [List.getElem?_drop, contents_getElem? b mem hfit hpos hlen hmem]
    by_cases hn : n < b.in_len_
    · have hmod : size_add b.in_pos_ n % b.cap_ < b.cap_ := Nat.mod_lt _ (by omega)
      rw [if_pos hn, contents_getElem? ⟨b.cap_, size_add b.in_pos_ n % b.cap_, b.in_len_ - n⟩
        mem hfit hmod (by show b.in_len_ - n ≤ b.cap_; omega) hmem]
      show (if k < b.in_len_ - n then mem[(size_add b.in_pos_ n % b.cap_ + k) % b.cap_]?
        else none) = _
      rw [size_add_eq _ _ (by omega), Nat.mod_add_mod, Nat.min_eq_left (by omega)]
      by_cases hk : k < b.in_len_ - n
      · rw [if_pos hk, if_pos (by omega), show b.in_pos_ + n + k = b.in_pos_ + (n + k) by omega]
      · rw [if_neg hk, if_neg (by omega)]
    · rw [if_neg hn, contents_getElem? ⟨b.cap_, 0, 0⟩ mem hfit (by show 0 < b.cap_; omega)
        (by show 0 ≤ b.cap_; omega) hmem, Nat.min_eq_right (by omega)]
      show (if k < 0 then _ else none) = _
      rw [if_neg (by omega), if_neg (by omega)]

theorem circular_buffer_fifo_witness :
    (∃ p, circular_buffer.prepare ⟨10, 5, 7⟩ = some p ∧
      (circular_buffer.commit ⟨10, 5, 7⟩ [100, 101].length).contents
          (write_bytes p [0, 1, 2, 3, 4, 5, 6, 7, 8, 9] 0 [100, 101])
        = circular_buffer.contents ⟨10, 5, 7⟩ [0, 1, 2, 3, 4, 5, 6, 7, 8, 9] ++ [100, 101]) ∧
    (∀ n, ∃ b', circular_buffer.consume ⟨10, 5, 7⟩ n = some b' ∧
      b'.contents [0, 1, 2, 3, 4, 5, 6, 7, 8, 9]
        = (circular_buffer.contents ⟨10, 5, 7⟩ [0, 1, 2, 3, 4, 5, 6, 7, 8, 9]).drop (min n 7)) :=
  circular_buffer_fifo ⟨10, 5, 7⟩ [0, 1, 2, 3, 4, 5, 6, 7, 8, 9] [100, 101]
    (by decide) (by decide) (by decide) (by decide) (by decide)

/-! ## workspace: scoped rollback -/

/-- C18: in `workspace::emplace` and `workspace::push_array`, when `bump_down` or the
constructor throws, `head_` after the call is `head_` before the call, provided that head
was not null; when both return, `head_` is the address `bump_down` returned and the next
link of the new node is the `head_` from before the call. -/
theorem workspace_rollback (ws : workspace) (bump_down : Option Nat) (construct : Bool) :
    ((bump_down = none ∨ construct = false) → ws.head_ ≠ 0 →
      (ws.emplace bump_down construct).1.head_ = ws.head_ ∧
      (ws.emplace bump_down construct).2 = none ∧
      (ws.push_array bump_down construct).1.head_ = ws.head_ ∧
      (ws.push_array bump_down construct).2 = none) ∧
    (∀ p, bump_down = some p → construct = true →
      (ws.emplace bump_down construct).1.head_ = p ∧
      (ws.emplace bump_down construct).1.any_next p = ws.head_ ∧
      (ws.emplace bump_down construct).2 = some p ∧
      (ws.push_array bump_down construct).1.head_ = p ∧
      (ws.push_array bump_down construct).1.any_next p = ws.head_ ∧
      (ws.push_array bump_down construct).2 = some p) := by
  constructor
  · intro hfail hhead
    rcases bump_down with _ | p
    · simp [workspace.emplace, workspace.push_array, workspace.undo.dtor,
        workspace.undo.ctor, hhead]
    · have hc : construct = false := by
        rcases hfail with h | h
        · exact absurd h (by simp)
        · exact h
      subst hc
      simp [workspace.emplace, workspace.push_array, workspace.undo.dtor,
        workspace.undo.ctor, hhead]
  · intro p hb hc
    subst hb hc
    simp [workspace.emplace, workspace.push_array, workspace.undo.dtor,
      workspace.undo.commit]

theorem workspace_rollback_witness :
    (workspace.emplace ⟨1000, fun _ => 0⟩ (some 900) false).1.head_ = 1000 ∧
    (workspace.emplace ⟨1000, fun _ => 0⟩ (some 900) false).2 = none ∧
    (workspace.push_array ⟨1000, fun _ => 0⟩ (some 900) false).1.head_ = 1000 ∧
    (workspace.push_array ⟨1000, fun _ => 0⟩ (some 900) false).2 = none :=
  (workspace_rollback ⟨1000, fun _ => 0⟩ (some 900) false).1 (Or.inr rfl) (by decide)

/-! ## workspace: the chain is in LIFO order -/

theorem step_head (ws : workspace) (c : workspace.call) : (ws.step c).head_ = c.addr := by
  cases c <;> rfl

theorem step_any_next (ws : workspace) (c : workspace.call) (a : Nat) :
    (ws.step c).any_next a = if a = c.addr then ws.head_ else ws.any_next a := by
  rcases c with p | p
  · by_cases ha : a = p <;>
      simp [workspace.step, workspace.emplace, workspace.undo.dtor, workspace.undo.commit,
        workspace.call.addr, ha]
  · by_cases ha : a = p <;>
      simp [workspace.step, workspace.push_array, workspace.undo.dtor, workspace.undo.commit,
        workspace.call.addr, ha]

theorem run_append (cs : List workspace.call) (c : workspace.call) :
    ∀ ws : workspace, ws.run (cs ++ [c]) = (ws.run cs).step c := by
  induction cs with
  | nil => intro ws; rfl
  | cons d cs ih => intro ws; exact ih (ws.step d)

theorem grows_down_append (cs : List workspace.call) (c : workspace.call) :
    ∀ ws : workspace, ws.grows_down (cs ++ [c]) ↔
      ws.grows_down cs ∧ c.addr < (ws.run cs).head_ := by
  induction cs with
  | nil =>
    intro ws
    simp [workspace.grows_down, workspace.run]
  | cons d cs ih =>
    intro ws
    show (d.addr < ws.head_ ∧ (ws.step d).grows_down (cs ++ [c])) ↔
      (d.addr < ws.head_ ∧ (ws.step d).grows_down cs) ∧ c.addr < ((ws.step d).run cs).head_
    rw [ih (ws.step d)]
    exact and_assoc.symm

theorem run_head_le (cs : List workspace.call) :
    ∀ ws : workspace, ws.grows_down cs →
      (ws.run cs).head_ ≤ ws.head_ ∧ ∀ a ∈ cs.map workspace.call.addr, (ws.run cs).head_ ≤ a := by
  induction cs with
  | nil =>
    intro ws _
    exact ⟨Nat.le_refl _, by simp⟩
  | cons d cs ih =>
    intro ws h
    obtain ⟨h1, h2⟩ := h
    obtain ⟨e1, e2⟩ := ih (ws.step d) h2
    rw [step_head] at e1
    refine ⟨by show (workspace.run (ws.step d) cs).head_ ≤ _; omega, ?_⟩
    intro a ha
    show (workspace.run (ws.step d) cs).head_ ≤ a
    simp only [List.map_cons, List.mem_cons] at ha
    rcases ha with rfl | ha
    · exact e1
    · exact e2 a ha

theorem chain_congr (ws ws' : workspace) :
    ∀ (k p : Nat), (∀ x ∈ ws.chain k p, ws'.any_next x = ws.any_next x) →
      ws'.chain k p = ws.chain k p ∧ ws'.walk k p = ws.walk k p := by
  intro k
  induction k with
  | zero => intro p _; exact ⟨rfl, rfl⟩
  | succ k ih =>
    intro p h
    have hp : ws'.any_next p = ws.any_next p := h p (by simp [workspace.chain])
    have hrest := ih (ws.any_next p) (fun x hx => h x (by simp [workspace.chain, hx]))
    simp only [workspace.chain, workspace.walk, hp]
    exact ⟨by rw [hrest.1], hrest.2⟩

/-- C19: after a sequence of successful `workspace::emplace` and `workspace::push_array`
calls, in each of which `bump_down` returned an address below `head_`, following the next
links from `head_` visits the allocated nodes in reverse order of allocation, each exactly
once, and ends at the value `head_` had before the first call. -/
theorem workspace_chain_lifo (ws : workspace) (cs : List workspace.call)
    (h : ws.grows_down cs) :
    (ws.run cs).chain cs.length (ws.run cs).head_ = (cs.map workspace.call.addr).reverse ∧
    (ws.run cs).walk cs.length (ws.run cs).head_ = ws.head_ ∧
    ((cs.map workspace.call.addr).reverse).Nodup := by
  induction cs using List.reverseRecOn with
  | nil => exact ⟨rfl, rfl, by simp⟩
  | append_singleton cs c ih =>
    obtain ⟨hcs, hc⟩ := (grows_down_append cs c ws).1 h
    obtain ⟨e1, e2, e3⟩ := ih hcs
    obtain ⟨_, hle⟩ := run_head_le cs ws hcs
    have hne : ∀ x ∈ (ws.run cs).chain cs.length (ws.run cs).head_,
        ((ws.run cs).step c).any_next x = (ws.run cs).any_next x := by
      intro x hx
      rw [e1, List.mem_reverse] at hx
      have := hle x hx
      rw [step_any_next, if_neg (by omega)]
    obtain ⟨c1, c2⟩ := chain_congr (ws.run cs) ((ws.run cs).step c) cs.length
      (ws.run cs).head_ hne
    have hnext : ((ws.run cs).step c).any_next c.addr = (ws.run cs).head_ := by
      rw [step_any_next, if_pos rfl]
    rw [run_append, step_head, List.length_append, List.length_singleton, List.map_append,
      List.reverse_append]
    simp only [workspace.chain, workspace.walk, hnext, c1, c2, e1, e2, List.map_cons,
      List.map_nil, List.reverse_cons, List.reverse_nil, List.nil_append, List.singleton_append,
      true_and]
    rw [List.nodup_cons]
    refine ⟨?_, by simpa using e3⟩
    intro hmem
    have := hle c.addr (by simpa using hmem)
    omega

theorem workspace_chain_lifo_witness :
    (workspace.run ⟨1000, fun _ => 0⟩
        [workspace.call.emplace 900, workspace.call.push_array 700,
          workspace.call.emplace 650]).chain
      [workspace.call.emplace 900, workspace.call.push_array 700,
        workspace.call.emplace 650].length
      (workspace.run ⟨1000, fun _ => 0⟩
        [workspace.call.emplace 900, workspace.call.push_array 700,
          workspace.call.emplace 650]).head_
      = ([workspace.call.emplace 900, workspace.call.push_array 700,
          workspace.call.emplace 650].map workspace.call.addr).reverse ∧
    (workspace.run ⟨1000, fun _ => 0⟩
        [workspace.call.emplace 900, workspace.call.push_array 700,
          workspace.call.emplace 650]).walk
      [workspace.call.emplace 900, workspace.call.push_array 700,
        workspace.call.emplace 650].length
      (workspace.run ⟨1000, fun _ => 0⟩
        [workspace.call.emplace 900, workspace.call.push_array 700,
          workspace.call.emplace 650]).head_
      = 1000 ∧
    (([workspace.call.emplace 900, workspace.call.push_array 700,
        workspace.call.emplace 650].map workspace.call.addr).reverse).Nodup :=
  workspace_chain_lifo ⟨1000, fun _ => 0⟩
    [workspace.call.emplace 900, workspace.call.push_array 700, workspace.call.emplace 650]
    ⟨by decide, by decide, by decide, trivial⟩

/-! ## Flattening a parsed value -/

theorem trim_leading_value_bytes (B : List Nat) (hB : value_bytes B) :
    value_bytes (trim_leading B) := by
  induction hB with
  | nil => exact value_bytes.nil
  | vchar c B hc hB _ =>
    rw [trim_leading_fv c B hc]
    exact value_bytes.vchar c B hc hB
  | ws c B hc _ ih => rw [trim_leading_ws c B hc]; exact ih
  | fold c B hc _ ih => rw [trim_leading_fold c B hc]; exact ih

/-- On a grammatical value no assertion of `replace_obs_fold` fails and the rewritten value
holds neither CR nor LF. -/
theorem replace_obs_fold_value (V : List Nat) (hV : value_bytes V) :
    replace_obs_fold_asserts V = true ∧
      ∀ c ∈ replace_obs_fold_fn V, c ≠ 13 ∧ c ≠ 10 := by
  induction hV with
  | nil =>
    refine ⟨rfl, ?_⟩
    intro c hc
    simp [replace_obs_fold_fn] at hc
  | vchar a V ha _ ih =>
    have hb := fv_bounds a ha
    rw [replace_obs_fold_asserts_other a V (by omega), replace_obs_fold_fn_other a V (by omega)]
    refine ⟨ih.1, ?_⟩
    intro c hc
    simp only [List.mem_cons] at hc
    rcases hc with rfl | hc
    · omega
    · exact ih.2 c hc
  | ws a V ha _ ih =>
    have hb : a = 32 ∨ a = 9 := (ws_iff a).1 ha
    rw [replace_obs_fold_asserts_other a V (by omega), replace_obs_fold_fn_other a V (by omega)]
    refine ⟨ih.1, ?_⟩
    intro c hc
    simp only [List.mem_cons] at hc
    rcases hc with rfl | hc
    · omega
    · exact ih.2 c hc
  | fold a V ha _ ih =>
    have hb : a = 32 ∨ a = 9 := (ws_iff a).1 ha
    rw [replace_obs_fold_asserts_cr_fold a V ha, replace_obs_fold_fn_cr_fold a V ha]
    refine ⟨ih.1, ?_⟩
    intro c hc
    simp only [List.mem_cons] at hc
    rcases hc with rfl | rfl | rfl | hc
    · decide
    · decide
    · omega
    · exact ih.2 c hc

/-- In a grammatical value every CR is followed by LF and by a third byte. -/
theorem value_bytes_cr (V : List Nat) (hV : value_bytes V) :
    ∀ i, V[i]? = some 13 → V[i + 1]? = some 10 ∧ ∃ c, V[i + 2]? = some c := by
  induction hV with
  | nil =>
    intro i h
    simp at h
  | vchar a V ha _ ih =>
    intro i h
    rcases i with _ | i
    · have := fv_ne_cr a ha
      simp at h
      exact absurd h this
    · simpa using ih i (by simpa using h)
  | ws a V ha _ ih =>
    intro i h
    rcases i with _ | i
    · have := ws_ne_cr a ha
      simp at h
      exact absurd h this
    · simpa using ih i (by simpa using h)
  | fold a V ha _ ih =>
    intro i h
    rcases i with _ | _ | _ | i
    · exact ⟨by simp, a, by simp⟩
    · simp at h
    · have := ws_ne_cr a ha
      simp at h
      exact absurd h this
    · simpa using ih i (by simpa using h)

/-- C20: when `header_fields::increment` parses a field, `replace_obs_fold` over the
reported value range returns with no assertion `it[1] == '\n'` violated (every CR in the
value is followed by LF and by a third byte inside the value), and the value afterwards
holds no CR and no LF byte. -/
theorem flatten_value_safe (s : List Nat) (v : value_type) (r : increment_result)
    (h : header_fields.increment s v = some r) (hok : r.ec = none) :
    (∃ out, replace_obs_fold (r.v.value.bytes s) = some (out, true) ∧
      ∀ c ∈ out, c ≠ 13 ∧ c ≠ 10) ∧
    (∀ i, (r.v.value.bytes s)[i]? = some 13 →
      (r.v.value.bytes s)[i + 1]? = some 10 ∧ ∃ c, (r.v.value.bytes s)[i + 2]? = some c) := by
  rw [increment_eq] at h
  have hr : increment_fn s v = r := Option.some.inj h
  subst hr
  obtain ⟨N, B, c, R, hs, hne, hN, hB, hc, hform⟩ := increment_fn_ok_form s v hok
  rw [hform]
  simp only
  rw [hs, value_bytes_of_accept N B _ hB]
  have hV := trim_leading_value_bytes B hB
  obtain ⟨h1, h2⟩ := replace_obs_fold_value _ hV
  refine ⟨⟨replace_obs_fold_fn (trim_leading B), ?_, h2⟩, value_bytes_cr _ hV⟩
  rw [replace_obs_fold_eq, h1]

theorem flatten_value_safe_witness :
    (∃ out, replace_obs_fold
        (string_view.bytes ⟨3, 5⟩ (bytes "x: y\r\n z\r\n\r\n")) = some (out, true) ∧
      ∀ c ∈ out, c ≠ 13 ∧ c ≠ 10) ∧
    (∀ i, (string_view.bytes ⟨3, 5⟩ (bytes "x: y\r\n z\r\n\r\n"))[i]? = some 13 →
      (string_view.bytes ⟨3, 5⟩ (bytes "x: y\r\n z\r\n\r\n"))[i + 1]? = some 10 ∧
      ∃ c, (string_view.bytes ⟨3, 5⟩ (bytes "x: y\r\n z\r\n\r\n"))[i + 2]? = some c) :=
  flatten_value_safe (bytes "x: y\r\n z\r\n\r\n") value_type.init
    ⟨10, none, ⟨⟨0, 1⟩, ⟨3, 5⟩, true⟩⟩ (by decide) (by decide)

/-! ## Bytes consumed per outcome -/

/-- A call that returned error::end read CR LF at the start of its input. -/
theorem increment_fn_end (s : List Nat) (v : value_type)
    (h : (increment_fn s v).ec = some error.end_) :
    ∃ R, s = 13 :: 10 :: R ∧ increment_fn s v = ⟨2, some error.end_, v⟩ := by
  rcases header_split s with rfl | ⟨R, rfl⟩ | ⟨hne, hcr, hall⟩ | ⟨N, x, X, rfl, hN, hx, hcr⟩
  · simp [increment_fn_nil, fail_with] at h
  · rcases R with _ | ⟨d, R⟩
    · simp [increment_fn_cr_nil, fail_with] at h
    · by_cases hd : d = 10
      · subst hd
        exact ⟨R, rfl, increment_fn_cr_lf R v⟩
      · simp [increment_fn_cr_other d R v hd, fail_with] at h
  · simp [increment_fn_all_tchar s v hne hcr hall, fail_with] at h
  · rw [increment_fn_split N x X v hN hx hcr] at h
    by_cases h58 : x = 58
    · by_cases h0 : N.length = 0
      · simp [h58, h0, fail_with] at h
      · simp only [h58, ne_eq, not_true_eq_false, if_false, h0] at h
        exact absurd h (scan_ec _ _ _ _ _).1
    · simp [h58, fail_with] at h

/-- C22: `header_fields::increment` returns on every input; on need_more, bad_field_name,
bad_line_ending and bad_field_value the returned position is `start` and the stored name
and value are unchanged; on error::end exactly 2 bytes are consumed; on a parsed field at
least 4 bytes and strictly fewer bytes than the input holds are consumed. Hence after a
parsed field or error::end the remaining input is strictly shorter. -/
theorem increment_consumed (s : List Nat) (v : value_type) :
    ∃ r, header_fields.increment s v = some r ∧
      ((r.ec = some error.need_more ∨ r.ec = some error.bad_field_name ∨
          r.ec = some error.bad_line_ending ∨ r.ec = some error.bad_field_value) →
        r.it = 0 ∧ r.v.name = v.name ∧ r.v.value = v.value) ∧
      (r.ec = some error.end_ → r.it = 2 ∧ 2 ≤ s.length) ∧
      (r.ec = none → 4 ≤ r.it ∧ r.it < s.length) ∧
      ((r.ec = none ∨ r.ec = some error.end_) → (s.drop r.it).length < s.length) := by
  refine ⟨increment_fn s v, increment_eq s v, ?_, ?_, ?_, ?_⟩
  · intro herr
    apply increment_fn_err
    · rcases herr with h | h | h | h <;> rw [h] <;> simp
    · rcases herr with h | h | h | h <;> rw [h] <;> simp
  · intro hend
    obtain ⟨R, hs, hform⟩ := increment_fn_end s v hend
    rw [hform, hs]
    exact ⟨rfl, by simp⟩
  · intro hok
    obtain ⟨N, B, c, R, hs, hne, _, _, _, hform⟩ := increment_fn_ok_form s v hok
    have hN : 0 < N.length := List.length_pos.2 hne
    rw [hform, hs]
    simp only [List.length_append, List.length_cons]
    omega
  · intro h
    rcases h with hok | hend
    · obtain ⟨N, B, c, R, hs, hne, _, _, _, hform⟩ := increment_fn_ok_form s v hok
      rw [hform, hs]
      simp only [List.length_drop, List.length_append, List.length_cons]
      omega
    · obtain ⟨R, hs, hform⟩ := increment_fn_end s v hend
      rw [hform, hs]
      simp only [List.length_drop, List.length_cons]
      omega

/-! ## has_obs_fold is never cleared -/

theorem scan_has_obs_fold (k1 : Nat) (l : List Nat) :
    ∀ (it : Nat) (v0 : Option Nat) (v : value_type), v.has_obs_fold = true →
      (scan k1 l it v0 v).v.has_obs_fold = true := by
  induction l using scan_induction with
  | nil => intro it v0 v h; exact h
  | fv a rest ha ih => intro it v0 v h; rw [scan_fv _ _ _ _ _ _ ha]; exact ih _ _ _ h
  | ws a rest ha ih => intro it v0 v h; rw [scan_ws _ _ _ _ _ _ ha]; exact ih _ _ _ h
  | cr_short rest hr => intro it v0 v h; rw [scan_cr_short _ _ _ _ _ hr]; exact h
  | cr_bad d e rest hd => intro it v0 v h; rw [scan_cr_bad _ _ _ _ _ _ _ hd]; exact h
  | cr_end e rest he => intro it v0 v h; rw [scan_cr_end _ _ _ _ _ _ he]; exact h
  | cr_fold e rest he ih =>
    intro it v0 v _
    rw [scan_cr_fold _ _ _ _ _ _ he]
    exact ih _ _ _ rfl
  | other a rest hfv hws hcr =>
    intro it v0 v h; rw [scan_other _ _ _ _ _ _ hfv hws hcr]; exact h

theorem increment_fn_has_obs_fold (s : List Nat) (v : value_type)
    (h : v.has_obs_fold = true) : (increment_fn s v).v.has_obs_fold = true := by
  rcases header_split s with rfl | ⟨R, rfl⟩ | ⟨hne, hcr, hall⟩ | ⟨N, x, X, rfl, hN, hx, hcr⟩
  · exact h
  · rcases R with _ | ⟨d, R⟩
    · exact h
    · by_cases hd : d = 10
      · subst hd
        exact h
      · rw [increment_fn_cr_other d R v hd]
        exact h
  · rw [increment_fn_all_tchar s v hne hcr hall]
    exact h
  · rw [increment_fn_split N x X v hN hx hcr]
    by_cases h58 : x = 58
    · by_cases h0 : N.length = 0
      · simp only [h58, ne_eq, not_true_eq_false, if_false, h0, if_true]
        exact h
      · simp only [h58, ne_eq, not_true_eq_false, if_false, h0]
        exact scan_has_obs_fold _ _ _ _ _ h
    · simp only [h58, ne_eq, not_false_eq_true, if_true]
      exact h

/-- C23: `header_fields::increment` never clears has_obs_fold: on every input and with
every outcome, when the flag is true before the call it is true after it; and the flag set
while scanning is not rolled back by a failure: on the unterminated input "x: \r\n y",
starting from has_obs_fold = false, the call returns need_more with nothing consumed and
has_obs_fold is true afterwards. -/
theorem has_obs_fold_never_cleared :
    (∀ (s : List Nat) (v : value_type), v.has_obs_fold = true →
      ∃ r, header_fields.increment s v = some r ∧ r.v.has_obs_fold = true) ∧
    value_type.init.has_obs_fold = false ∧
    header_fields.increment (bytes "x: \r\n y") value_type.init
      = some ⟨0, some error.need_more, ⟨⟨0, 0⟩, ⟨0, 0⟩, true⟩⟩ := by
  refine ⟨?_, rfl, by decide⟩
  intro s v h
  exact ⟨increment_fn s v, increment_eq s v, increment_fn_has_obs_fold s v h⟩

theorem has_obs_fold_never_cleared_witness :
    ∃ r, header_fields.increment (bytes "x@") ⟨⟨0, 0⟩, ⟨0, 0⟩, true⟩ = some r ∧
      r.v.has_obs_fold = true :=
  has_obs_fold_never_cleared.1 (bytes "x@") ⟨⟨0, 0⟩, ⟨0, 0⟩, true⟩ rfl

theorem increment_consumed_witness :
    ∃ r, header_fields.increment (bytes "a: 1\r\n\r\n") value_type.init = some r ∧
      ((r.ec = some error.need_more ∨ r.ec = some error.bad_field_name ∨
          r.ec = some error.bad_line_ending ∨ r.ec = some error.bad_field_value) →
        r.it = 0 ∧ r.v.name = value_type.init.name ∧ r.v.value = value_type.init.value) ∧
      (r.ec = some error.end_ → r.it = 2 ∧ 2 ≤ (bytes "a: 1\r\n\r\n").length) ∧
      (r.ec = none → 4 ≤ r.it ∧ r.it < (bytes "a: 1\r\n\r\n").length) ∧
      ((r.ec = none ∨ r.ec = some error.end_) →
        ((bytes "a: 1\r\n\r\n").drop r.it).length < (bytes "a: 1\r\n\r\n").length) :=
  increment_consumed (bytes "a: 1\r\n\r\n") value_type.init

/-! ## circular_buffer: remainder by zero -/

/-- C24: on every state with `in_len_ ≤ cap_`, for every `n` and every capacity, 0
included, `consume(n)` takes a remainder by `cap_` only when `cap_ > 0`, and so returns;
`prepare()` takes the remainder `(in_pos_ + in_len_) % cap_` on every state, and so is free
of a remainder by zero exactly when `cap_ > 0`. -/
theorem remainder_by_zero :
    (∀ (b : circular_buffer) (n : Nat), b.in_len_ ≤ b.cap_ →
      (∀ p ∈ b.consume_remainders n, 0 < p.2) ∧ ∃ b', b.consume n = some b') ∧
    (∀ b : circular_buffer,
      b.prepare_remainders = [(size_add b.in_pos_ b.in_len_, b.cap_)] ∧
      ((∀ p ∈ b.prepare_remainders, 0 < p.2) ↔ 0 < b.cap_) ∧
      ((∃ p, b.prepare = some p) ↔ 0 < b.cap_)) := by
  constructor
  · intro b n hlen
    constructor
    · intro p hp
      unfold circular_buffer.consume_remainders at hp
      by_cases hn : n < b.in_len_
      · rw [if_pos hn] at hp
        simp only [List.mem_singleton] at hp
        subst hp
        show 0 < b.cap_
        omega
      · rw [if_neg hn] at hp
        simp at hp
    · unfold circular_buffer.consume
      by_cases hn : n < b.in_len_
      · rw [if_pos hn, size_rem_eq _ _ (by omega)]
        exact ⟨_, rfl⟩
      · rw [if_neg hn]
        exact ⟨_, rfl⟩
  · intro b
    refine ⟨rfl, ?_, ?_⟩
    · unfold circular_buffer.prepare_remainders
      simp
    · unfold circular_buffer.prepare
      by_cases hc : 0 < b.cap_
      · simp only [size_rem_eq _ _ hc, hc, iff_true]
        split <;> exact ⟨_, rfl⟩
      · have h0 : b.cap_ = 0 := by omega
        simp [size_rem, h0]

theorem remainder_by_zero_witness :
    (∀ p ∈ circular_buffer.consume_remainders ⟨0, 0, 0⟩ 5, 0 < p.2) ∧
      ∃ b', circular_buffer.consume ⟨0, 0, 0⟩ 5 = some b' :=
  remainder_by_zero.1 ⟨0, 0, 0⟩ 5 (by decide)

/-! ## replace_obs_fold applied twice -/

theorem fold_at_iff (b : List Nat) (i : Nat) :
    fold_at b i = true ↔
      b[i]? = some 13 ∧ b[i + 1]? = some 10 ∧
        ∃ c, b[i + 2]? = some c ∧ ws_set.contains c = true := by
  have hz : ws_set.contains 0 = false := by decide
  simp only [fold_at, starts_with_fold, List.getD_eq_getElem?_getD, List.getElem?_drop,
    Bool.and_eq_true, beq_iff_eq, Nat.add_zero]
  rcases h0 : b[i]? with _ | x0 <;> rcases h1 : b[i + 1]? with _ | x1 <;>
    rcases h2 : b[i + 2]? with _ | x2 <;> simp [hz, and_assoc]

theorem rewritten_at_iff (b : List Nat) (i : Nat) :
    rewritten_at b i = true ↔ fold_at b i = true ∨ (1 ≤ i ∧ fold_at b (i - 1) = true) := by
  simp [rewritten_at]

theorem contains_obs_fold_iff (l : List Nat) :
    contains_obs_fold l = true ↔ ∃ i, fold_at l i = true := by
  induction l with
  | nil =>
    constructor
    · intro h
      simp [contains_obs_fold] at h
    · rintro ⟨i, h⟩
      simp [fold_at, starts_with_fold] at h
  | cons c rest ih =>
    rw [contains_obs_fold, Bool.or_eq_true, ih]
    constructor
    · rintro (h | ⟨i, h⟩)
      · exact ⟨0, h⟩
      · exact ⟨i + 1, h⟩
    · rintro ⟨i, h⟩
      rcases i with _ | i
      · exact Or.inl h
      · exact Or.inr ⟨i, h⟩

theorem rewritten_at_lt (b : List Nat) (i : Nat) (h : rewritten_at b i = true) :
    i < b.length := by
  rcases (rewritten_at_iff b i).1 h with h | ⟨h1, h⟩
  · obtain ⟨h0, _, _⟩ := (fold_at_iff b i).1 h
    exact (List.getElem?_eq_some.1 h0).1
  · obtain ⟨_, h0, _⟩ := (fold_at_iff b (i - 1)).1 h
    have := (List.getElem?_eq_some.1 h0).1
    omega

/-- The buffer after `replace_obs_fold`, position by position. -/
theorem replace_obs_fold_fn_getElem? (b : List Nat) (i : Nat) :
    (replace_obs_fold_fn b)[i]? = if rewritten_at b i = true then some 32 else b[i]? := by
  by_cases hi : i < b.length
  · exact (replace_obs_fold_fn_spec b).2 i hi
  · have hr : ¬ rewritten_at b i = true := fun h => hi (rewritten_at_lt b i h)
    rw [if_neg hr, List.getElem?_eq_none (by rw [(replace_obs_fold_fn_spec b).1]; omega),
      List.getElem?_eq_none (by omega)]

/-- A buffer without a CR LF (SP|HTAB) sequence is left as it is. -/
theorem replace_obs_fold_fn_fixed (l : List Nat) (h : ∀ i, fold_at l i = false) :
    replace_obs_fold_fn l = l := by
  apply List.ext_getElem?
  intro k
  have hr : ¬ rewritten_at l k = true := by
    intro hk
    rcases (rewritten_at_iff l k).1 hk with h1 | ⟨_, h1⟩
    · rw [h k] at h1
      exact absurd h1 (by decide)
    · rw [h (k - 1)] at h1
      exact absurd h1 (by decide)
  rw [replace_obs_fold_fn_getElem?, if_neg hr]

/-- A buffer with a CR LF (SP|HTAB) sequence is changed. -/
theorem replace_obs_fold_fn_ne (l : List Nat) (i : Nat) (h : fold_at l i = true) :
    replace_obs_fold_fn l ≠ l := by
  intro heq
  have h1 := replace_obs_fold_fn_getElem? l i
  rw [heq, if_pos ((rewritten_at_iff l i).2 (Or.inl h)), ((fold_at_iff l i).1 h).1] at h1
  exact absurd h1 (by decide)

/-- Where a CR LF is immediately followed by a CR LF (SP|HTAB) sequence, the buffer after
`replace_obs_fold` has a CR LF SP sequence. -/
theorem replace_obs_fold_fn_new_fold (b : List Nat) (i : Nat)
    (h0 : b[i]? = some 13) (h1 : b[i + 1]? = some 10) (h2 : fold_at b (i + 2) = true) :
    fold_at (replace_obs_fold_fn b) i = true := by
  obtain ⟨g0, _, _⟩ := (fold_at_iff b (i + 2)).1 h2
  have n0 : ¬ fold_at b i = true := by
    intro h
    obtain ⟨_, _, c, hc, hw⟩ := (fold_at_iff b i).1 h
    rw [g0] at hc
    have := Option.some.inj hc
    subst this
    exact absurd hw (by decide)
  have n1 : ¬ fold_at b (i + 1) = true := by
    intro h
    obtain ⟨hc, _, _⟩ := (fold_at_iff b (i + 1)).1 h
    rw [h1] at hc
    exact absurd hc (by decide)
  have r0 : ¬ rewritten_at b i = true := by
    intro h
    rcases (rewritten_at_iff b i).1 h with h | ⟨hi, h⟩
    · exact n0 h
    · obtain ⟨_, hc, _⟩ := (fold_at_iff b (i - 1)).1 h
      rw [show i - 1 + 1 = i by omega, h0] at hc
      exact absurd hc (by decide)
  have r1 : ¬ rewritten_at b (i + 1) = true := by
    intro h
    rcases (rewritten_at_iff b (i + 1)).1 h with h | ⟨_, h⟩
    · exact n1 h
    · exact n0 h
  have r2 : rewritten_at b (i + 2) = true := (rewritten_at_iff b (i + 2)).2 (Or.inl h2)
  rw [fold_at_iff]
  refine ⟨?_, ?_, 32, ?_, by decide⟩
  · rw [replace_obs_fold_fn_getElem?, if_neg r0, h0]
  · rw [replace_obs_fold_fn_getElem?, if_neg r1, h1]
  · rw [replace_obs_fold_fn_getElem?, if_pos r2]

/-- Where no CR LF is immediately followed by a CR LF (SP|HTAB) sequence, the buffer after
`replace_obs_fold` has no CR LF (SP|HTAB) sequence. -/
theorem replace_obs_fold_fn_no_fold (b : List Nat)
    (H : ∀ i, ¬ (b[i]? = some 13 ∧ b[i + 1]? = some 10 ∧ fold_at b (i + 2) = true)) :
    ∀ i, fold_at (replace_obs_fold_fn b) i = false := by
  intro i
  by_contra hcon
  have hf : fold_at (replace_obs_fold_fn b) i = true := by
    cases h : fold_at (replace_obs_fold_fn b) i
    · exact absurd h hcon
    · rfl
  obtain ⟨o0, o1, c, o2, hw⟩ := (fold_at_iff _ i).1 hf
  rw [replace_obs_fold_fn_getElem?] at o0 o1 o2
  have r0 : ¬ rewritten_at b i = true := by
    intro h
    rw [if_pos h] at o0
    exact absurd o0 (by decide)
  have r1 : ¬ rewritten_at b (i + 1) = true := by
    intro h
    rw [if_pos h] at o1
    exact absurd o1 (by decide)
  rw [if_neg r0] at o0
  rw [if_neg r1] at o1
  by_cases r2 : rewritten_at b (i + 2) = true
  · rcases (rewritten_at_iff b (i + 2)).1 r2 with h | ⟨_, h⟩
    · exact H i ⟨o0, o1, h⟩
    · exact r1 ((rewritten_at_iff b (i + 1)).2 (Or.inl h))
  · rw [if_neg r2] at o2
    exact r0 ((rewritten_at_iff b i).2 (Or.inl ((fold_at_iff b i).2 ⟨o0, o1, c, o2, hw⟩)))

/-- C21, as the code has it: with the assertion treated as a no-op, `replace_obs_fold`
applied to its own output changes nothing, and that output contains no CR LF (SP|HTAB)
sequence, for every byte string in which no CR LF is immediately followed by a
CR LF (SP|HTAB) sequence; for every other byte string the output does contain a
CR LF (SP|HTAB) sequence and a second application changes it. -/
theorem replace_obs_fold_twice (b : List Nat) :
    ∃ out ok out2 ok2,
      replace_obs_fold b = some (out, ok) ∧ replace_obs_fold out = some (out2, ok2) ∧
      ((∀ i, ¬ (b[i]? = some 13 ∧ b[i + 1]? = some 10 ∧ fold_at b (i + 2) = true)) →
        out2 = out ∧ contains_obs_fold out = false) ∧
      ((∃ i, b[i]? = some 13 ∧ b[i + 1]? = some 10 ∧ fold_at b (i + 2) = true) →
        out2 ≠ out ∧ contains_obs_fold out = true) := by
  refine ⟨_, _, _, _, replace_obs_fold_eq b, replace_obs_fold_eq _, ?_, ?_⟩
  · intro H
    have hno := replace_obs_fold_fn_no_fold b H
    refine ⟨replace_obs_fold_fn_fixed _ hno, ?_⟩
    cases hc : contains_obs_fold (replace_obs_fold_fn b)
    · rfl
    · obtain ⟨i, hi⟩ := (contains_obs_fold_iff _).1 hc
      rw [hno i] at hi
      exact absurd hi (by decide)
  · rintro ⟨i, h0, h1, h2⟩
    have hf := replace_obs_fold_fn_new_fold b i h0 h1 h2
    exact ⟨replace_obs_fold_fn_ne _ i hf, (contains_obs_fold_iff _).2 ⟨i, hf⟩⟩

theorem replace_obs_fold_twice_witness :
    ∃ out ok out2 ok2,
      replace_obs_fold (bytes "y\r\n z") = some (out, ok) ∧
      replace_obs_fold out = some (out2, ok2) ∧
      out2 = out ∧ contains_obs_fold out = false := by
  obtain ⟨out, ok, out2, ok2, h1, h2, h3, _⟩ := replace_obs_fold_twice (bytes "y\r\n z")
  refine ⟨out, ok, out2, ok2, h1, h2, h3 ?_⟩
  have hb : ∀ i, i < 5 → ¬ ((bytes "y\r\n z")[i]? = some 13 ∧
      (bytes "y\r\n z")[i + 1]? = some 10 ∧ fold_at (bytes "y\r\n z") (i + 2) = true) := by
    decide
  intro i hi
  have hlt : i < (bytes "y\r\n z").length := (List.getElem?_eq_some.1 hi.1).1
  exact hb i hlt hi

/-- C21 as stated fails: on the five bytes CR LF CR LF SP `replace_obs_fold` returns
CR LF SP SP SP, which contains a CR LF SP sequence, and applied to that it returns five SP
bytes; no assertion fails in either call. -/
theorem replace_obs_fold_twice_counterexample :
    replace_obs_fold [13, 10, 13, 10, 32] = some ([13, 10, 32, 32, 32], true) ∧
    replace_obs_fold [13, 10, 32, 32, 32] = some ([32, 32, 32, 32, 32], true) ∧
    ([32, 32, 32, 32, 32] : List Nat) ≠ [13, 10, 32, 32, 32] ∧
    contains_obs_fold [13, 10, 32, 32, 32] = true := by
  decide

end http_proto
